import Mathlib

/-!
Verification of the mcp-server-acube repository (TypeScript MCP server for the
A-Cube API) against its natural-language specification.

The TypeScript sources are shallowly embedded:

* JavaScript runtime values (as produced by `JSON.parse` and manipulated by
  `src/response.ts` and `src/tools/invoices.ts`) are modelled by the inductive
  type `JSVal`.  JavaScript objects are association lists in insertion order;
  `undefined` is an explicit value (`JSVal.undef`).  JavaScript numbers are
  modelled by `ℚ`; the claims under verification only move numbers around and
  never exercise IEEE-754 behaviour.
* `src/response.ts` (`pickFields`, `stripEmpty`) is embedded as pure
  functions; the `Object.assign` mutation inside `pickFields` is made explicit
  by threading the (possibly mutated) input through every call, so each
  function returns the pair (result, input after the call).
* `src/client.ts` (`AcubeClient`) is embedded as a state machine: the token
  cache is a record, `fetch` is replaced by an explicit `HttpResponse`
  argument supplied by the environment, and thrown errors become `Except`.
-/

namespace Acube

/-- JavaScript runtime values (the subset produced by JSON plus `undefined`).
Objects keep their fields as an association list in insertion order, which is
the order `Object.entries` and object spreads observe. -/
inductive JSVal : Type where
  | undef : JSVal
  | null : JSVal
  | bool : Bool → JSVal
  | num : ℚ → JSVal
  | str : String → JSVal
  | arr : List JSVal → JSVal
  | obj : List (String × JSVal) → JSVal

mutual

/-- Boolean structural equality on `JSVal` (decidable equality is derived from
it below; the automatic derivation does not support this nested inductive). -/
def jsvalBEq : JSVal → JSVal → Bool
  | .undef, .undef => true
  | .null, .null => true
  | .bool a, .bool b => a == b
  | .num a, .num b => a == b
  | .str a, .str b => a == b
  | .arr a, .arr b => jsvalListBEq a b
  | .obj a, .obj b => jsvalFieldsBEq a b
  | _, _ => false

def jsvalListBEq : List JSVal → List JSVal → Bool
  | [], [] => true
  | a :: as, b :: bs => jsvalBEq a b && jsvalListBEq as bs
  | _, _ => false

def jsvalFieldsBEq : List (String × JSVal) → List (String × JSVal) → Bool
  | [], [] => true
  | (k, v) :: as, (k', v') :: bs => k == k' && jsvalBEq v v' && jsvalFieldsBEq as bs
  | _, _ => false

end

mutual

theorem jsvalBEq_iff : (a b : JSVal) → (jsvalBEq a b = true ↔ a = b)
  | .undef, b => by cases b <;> simp [jsvalBEq]
  | .null, b => by cases b <;> simp [jsvalBEq]
  | .bool x, b => by cases b <;> simp [jsvalBEq]
  | .num x, b => by cases b <;> simp [jsvalBEq]
  | .str x, b => by cases b <;> simp [jsvalBEq]
  | .arr xs, b => by
      cases b
      case arr ys => simp [jsvalBEq, jsvalListBEq_iff xs ys]
      all_goals simp [jsvalBEq]
  | .obj fs, b => by
      cases b
      case obj gs => simp [jsvalBEq, jsvalFieldsBEq_iff fs gs]
      all_goals simp [jsvalBEq]

theorem jsvalListBEq_iff : (a b : List JSVal) → (jsvalListBEq a b = true ↔ a = b)
  | [], [] => by simp [jsvalListBEq]
  | [], _ :: _ => by simp [jsvalListBEq]
  | _ :: _, [] => by simp [jsvalListBEq]
  | a :: as, b :: bs => by
      simp [jsvalListBEq, jsvalBEq_iff a b, jsvalListBEq_iff as bs]

theorem jsvalFieldsBEq_iff :
    (a b : List (String × JSVal)) → (jsvalFieldsBEq a b = true ↔ a = b)
  | [], [] => by simp [jsvalFieldsBEq]
  | [], _ :: _ => by simp [jsvalFieldsBEq]
  | _ :: _, [] => by simp [jsvalFieldsBEq]
  | (k, v) :: as, (k', v') :: bs => by
      simp [jsvalFieldsBEq, jsvalBEq_iff v v', jsvalFieldsBEq_iff as bs,
        and_assoc]

end

instance : DecidableEq JSVal := fun a b => decidable_of_iff _ (jsvalBEq_iff a b)

namespace JSVal

/-- First binding of a key in an object's field list (JS property lookup;
JS objects cannot have duplicate keys, so first match is the binding).
Polymorphic so the same model serves value objects and header records. -/
def lookupKey {α : Type} : List (String × α) → String → Option α
  | [], _ => none
  | (k', v) :: rest, k => if k' = k then some v else lookupKey rest k

/-- JS `key in obj`. -/
def hasKey {α : Type} (fs : List (String × α)) (k : String) : Bool :=
  (lookupKey fs k).isSome

/-- JS property write `obj[k] = v`: overwrite in place if the key exists,
otherwise append (insertion order). -/
def setKey {α : Type} : List (String × α) → String → α → List (String × α)
  | [], k, v => [(k, v)]
  | (k', v') :: rest, k, v =>
      if k' = k then (k', v) :: rest else (k', v') :: setKey rest k v

end JSVal

open JSVal

/-! ## `stripEmpty` (src/response.ts lines 84-104)

```ts
export function stripEmpty(data: unknown): unknown {
  if (data === null || data === undefined) return undefined;
  if (Array.isArray(data)) {
    return data.map(stripEmpty);
  }
  if (typeof data === "object") {
    const record = data as Record<string, unknown>;
    const result: Record<string, unknown> = {};
    for (const [key, value] of Object.entries(record)) {
      const stripped = stripEmpty(value);
      if (stripped !== undefined) {
        result[key] = stripped;
      }
    }
    return Object.keys(result).length > 0 ? result : undefined;
  }
  return data;
}
```
-/

mutual

/-- `stripEmpty` from src/response.ts. -/
def stripEmpty : JSVal → JSVal
  | .undef => .undef
  | .null => .undef
  | .bool b => .bool b
  | .num q => .num q
  | .str s => .str s
  | .arr xs => .arr (stripEmptyList xs)
  | .obj fs =>
      let result := stripEmptyFields fs
      if result.length > 0 then .obj result else JSVal.undef

/-- The `data.map(stripEmpty)` in the array branch of `stripEmpty`. -/
def stripEmptyList : List JSVal → List JSVal
  | [] => []
  | x :: xs => stripEmpty x :: stripEmptyList xs

/-- The `for (const [key, value] of Object.entries(record))` loop of
`stripEmpty`: keep `(key, stripEmpty value)` unless the stripped value is
`undefined`. -/
def stripEmptyFields : List (String × JSVal) → List (String × JSVal)
  | [] => []
  | (k, v) :: rest =>
      match stripEmpty v with
      | .undef => stripEmptyFields rest
      | v' => (k, v') :: stripEmptyFields rest

end

/-! ## JSON serialization (model of JavaScript `JSON.stringify`, compact form)

Used by the client to serialize request bodies and by `formatResponse` for
compact output.  `undefined` values produce no output at top level, are
dropped from objects, and serialize as `null` inside arrays — exactly the
behaviour the `stripEmpty` documentation relies on.  Number rendering covers
the terminating-decimal rationals that the JSON parser below produces. -/

/-- Four-digit lowercase hex, for the `\uXXXX` escapes of control chars. -/
def hexDigit (n : Nat) : Char :=
  if n < 10 then Char.ofNat (48 + n) else Char.ofNat (87 + n)

def hex4 (n : Nat) : String :=
  String.mk [hexDigit (n / 4096 % 16), hexDigit (n / 256 % 16),
    hexDigit (n / 16 % 16), hexDigit (n % 16)]

/-- JSON escaping of a single character. -/
def escapeChar (c : Char) : String :=
  if c = '"' then "\\\""
  else if c = '\\' then "\\\\"
  else if c = '\n' then "\\n"
  else if c = '\t' then "\\t"
  else if c = '\r' then "\\r"
  else if c = Char.ofNat 8 then "\\b"
  else if c = Char.ofNat 12 then "\\f"
  else if c.toNat < 32 then "\\u" ++ hex4 c.toNat
  else String.singleton c

/-- JSON rendering of a string literal. -/
def renderStr (s : String) : String :=
  "\"" ++ String.join (s.data.map escapeChar) ++ "\""

/-- Decimal digits of the fraction `rem / d` (with fuel; the JSON parser below
only produces terminating decimals, for which this is exact). -/
def fracDigitsNat : Nat → Nat → Nat → List Char
  | 0, _, _ => []
  | fuel + 1, rem, d =>
      if rem = 0 then []
      else Char.ofNat (48 + rem * 10 / d) :: fracDigitsNat fuel (rem * 10 % d) d

/-- Decimal rendering of a JSON number (on the reduced numerator/denominator,
so that it evaluates by kernel reduction). -/
def renderNum (q : ℚ) : String :=
  let sign := if q.num < 0 then "-" else ""
  let n := q.num.natAbs
  let d := q.den
  if n % d = 0 then sign ++ toString (n / d)
  else sign ++ toString (n / d) ++ "." ++ String.mk (fracDigitsNat 1000 (n % d) d)

mutual

/-- Model of `JSON.stringify` (compact, no indentation). `none` models the
JavaScript result `undefined`. -/
def jsonStringify : JSVal → Option String
  | .undef => none
  | .null => some "null"
  | .bool b => some (if b then "true" else "false")
  | .num q => some (renderNum q)
  | .str s => some (renderStr s)
  | .arr xs => some ("[" ++ String.intercalate "," (jsonStringifyArr xs) ++ "]")
  | .obj fs => some ("\x7b" ++ String.intercalate "," (jsonStringifyObj fs) ++ "\x7d")

/-- Array elements: `undefined` serializes as `null`. -/
def jsonStringifyArr : List JSVal → List String
  | [] => []
  | x :: xs => (jsonStringify x).getD "null" :: jsonStringifyArr xs

/-- Object entries: keys whose value serializes to `undefined` are dropped. -/
def jsonStringifyObj : List (String × JSVal) → List String
  | [] => []
  | (k, v) :: rest =>
      match jsonStringify v with
      | none => jsonStringifyObj rest
      | some s => (renderStr k ++ ":" ++ s) :: jsonStringifyObj rest

end

/-! ## Behaviour of `stripEmpty` -/

mutual

theorem stripEmpty_idem : (v : JSVal) → stripEmpty (stripEmpty v) = stripEmpty v
  | .undef => rfl
  | .null => rfl
  | .bool _ => rfl
  | .num _ => rfl
  | .str _ => rfl
  | .arr xs => by simp [stripEmpty, stripEmptyList_idem xs]
  | .obj fs => by
      have hf := stripEmptyFields_idem fs
      by_cases h : (stripEmptyFields fs).length > 0
      · simp [stripEmpty, h, hf]
      · simp [stripEmpty, h]

theorem stripEmptyList_idem :
    (xs : List JSVal) → stripEmptyList (stripEmptyList xs) = stripEmptyList xs
  | [] => rfl
  | x :: xs => by simp [stripEmptyList, stripEmpty_idem x, stripEmptyList_idem xs]

theorem stripEmptyFields_idem : (fs : List (String × JSVal)) →
    stripEmptyFields (stripEmptyFields fs) = stripEmptyFields fs
  | [] => rfl
  | (k, v) :: rest => by
      have hv := stripEmpty_idem v
      have hr := stripEmptyFields_idem rest
      cases h : stripEmpty v <;> rw [h] at hv <;>
        simp [stripEmptyFields, h, hv, hr]

end

theorem stripEmptyList_eq_map (xs : List JSVal) :
    stripEmptyList xs = xs.map stripEmpty := by
  induction xs with
  | nil => rfl
  | cons x xs ih => simp [stripEmptyList, ih]

theorem stripEmptyList_length (xs : List JSVal) :
    (stripEmptyList xs).length = xs.length := by
  simp [stripEmptyList_eq_map]

theorem stripEmptyFields_eq_filterMap (fs : List (String × JSVal)) :
    stripEmptyFields fs = fs.filterMap (fun kv =>
      match stripEmpty kv.2 with
      | .undef => none
      | v' => some (kv.1, v')) := by
  induction fs with
  | nil => rfl
  | cons kv rest ih =>
      obtain ⟨k, v⟩ := kv
      cases h : stripEmpty v <;> simp [stripEmptyFields, h, ih]

theorem stripEmpty_obj_eq (fs : List (String × JSVal)) :
    stripEmpty (.obj fs) =
      if stripEmptyFields fs = [] then .undef else .obj (stripEmptyFields fs) := by
  by_cases h : stripEmptyFields fs = [] <;>
    simp [stripEmpty, h, List.length_pos]

/-- C4: in objects, keys whose value strips to absent (`null`/`undefined`, or
an object that becomes empty after stripping) are dropped and the collapse
propagates transitively upward (`stripEmpty {a: 1, b: null, c: {d: null}} =
{a: 1}`, and a deeply nested all-null structure disappears completely); in
arrays the length is preserved, elements are stripped in place, and an absent
element remains a slot that `JSON.stringify` renders as `null`
(`stripEmpty [1, null, 2]` has length 3 with a `null` middle element). -/
theorem claim_C4_stripEmpty_objects_drop_arrays_preserve :
    (∀ fs : List (String × JSVal), stripEmptyFields fs = fs.filterMap (fun kv =>
        match stripEmpty kv.2 with
        | .undef => none
        | v' => some (kv.1, v')))
    ∧ (∀ fs : List (String × JSVal),
        stripEmpty (.obj fs) =
          if stripEmptyFields fs = [] then JSVal.undef else .obj (stripEmptyFields fs))
    ∧ stripEmpty (.obj [("a", .num 1), ("b", .null), ("c", .obj [("d", .null)])])
        = .obj [("a", .num 1)]
    ∧ stripEmpty (.obj [("x", .obj [("y", .obj [("z", .null)])])]) = .undef
    ∧ (∀ xs : List JSVal, stripEmpty (.arr xs) = .arr (xs.map stripEmpty)
        ∧ (xs.map stripEmpty).length = xs.length)
    ∧ stripEmpty (.arr [.num 1, .null, .num 2]) = .arr [.num 1, .undef, .num 2]
    ∧ jsonStringify (.arr [.num 1, .undef, .num 2]) = some "[1,null,2]" :=
  ⟨stripEmptyFields_eq_filterMap, stripEmpty_obj_eq, by decide, by decide,
    fun xs => ⟨by simp [stripEmpty, stripEmptyList_eq_map], by simp⟩,
    by decide, by decide⟩

/-- C8: `stripEmpty` is idempotent: `stripEmpty (stripEmpty x) = stripEmpty x`
for every value `x`. -/
theorem claim_C8_stripEmpty_idempotent (v : JSVal) :
    stripEmpty (stripEmpty v) = stripEmpty v :=
  stripEmpty_idem v

/-- C10: an object key whose value is an array is always retained by
`stripEmpty`, even when the array is empty or all of its elements strip to
absent (`stripEmpty {a: []} = {a: []}`); arrays are mapped element-wise and
never themselves become absent, in contrast to objects, which become absent
when they end up with zero keys. -/
theorem claim_C10_stripEmpty_retains_array_valued_keys :
    (∀ xs : List JSVal, stripEmpty (.arr xs) = .arr (xs.map stripEmpty))
    ∧ (∀ (fs : List (String × JSVal)) (k : String) (xs : List JSVal),
        (k, JSVal.arr xs) ∈ fs →
        (k, JSVal.arr (xs.map stripEmpty)) ∈ stripEmptyFields fs)
    ∧ stripEmpty (.obj [("a", .arr [])]) = .obj [("a", .arr [])]
    ∧ stripEmpty (.obj [("a", .arr [.null])]) = .obj [("a", .arr [.undef])]
    ∧ stripEmpty (.obj [("a", .obj [])]) = .undef := by
  refine ⟨fun xs => by simp [stripEmpty, stripEmptyList_eq_map], ?_,
    by decide, by decide, by decide⟩
  intro fs k xs hmem
  rw [stripEmptyFields_eq_filterMap]
  refine List.mem_filterMap.mpr ⟨(k, .arr xs), hmem, ?_⟩
  simp [stripEmpty, stripEmptyList_eq_map]

theorem claim_C10_stripEmpty_retains_array_valued_keys_witness :
    ("a", JSVal.arr [JSVal.null]) ∈ ([("a", JSVal.arr [JSVal.null])] :
        List (String × JSVal))
    ∧ ("a", JSVal.arr ([JSVal.null].map stripEmpty)) ∈
        stripEmptyFields [("a", JSVal.arr [JSVal.null])] :=
  ⟨by decide,
    claim_C10_stripEmpty_retains_array_valued_keys.2.1
      [("a", JSVal.arr [JSVal.null])] "a" [JSVal.null] (by decide)⟩

/-! ## JSON parsing (model of JavaScript `JSON.parse`)

`src/client.ts` uses `JSON.parse` on response bodies and
`src/tools/invoices.ts` uses it on the `payload` string.  The model is a
fuel-indexed recursive-descent parser for the JSON grammar; `none` models a
thrown `SyntaxError`.  Numbers become rationals built with `mkRat` from the
literal's mantissa and power-of-ten scale. -/

def isWsChar (c : Char) : Bool :=
  c = ' ' || c = '\t' || c = '\n' || c = '\r'

def skipWs : List Char → List Char
  | [] => []
  | c :: cs => if isWsChar c then skipWs cs else c :: cs

def hexVal (c : Char) : Option Nat :=
  if '0' ≤ c ∧ c ≤ '9' then some (c.toNat - 48)
  else if 'a' ≤ c ∧ c ≤ 'f' then some (c.toNat - 87)
  else if 'A' ≤ c ∧ c ≤ 'F' then some (c.toNat - 70)
  else none

def isDigit (c : Char) : Bool := '0' ≤ c && c ≤ '9'

/-- Contents of a JSON string literal after the opening quote, handling the
JSON escape sequences; returns the decoded characters and the input after the
closing quote. -/
def parseStrChars : Nat → List Char → Option (List Char × List Char)
  | 0, _ => none
  | _ + 1, [] => none
  | fuel + 1, c :: cs =>
      if c = '"' then some ([], cs)
      else if c = '\\' then
        match cs with
        | [] => none
        | e :: rest =>
            if e = 'u' then
              match rest with
              | a :: b :: c2 :: d :: rest' =>
                  match hexVal a, hexVal b, hexVal c2, hexVal d with
                  | some ha, some hb, some hc, some hd =>
                      match parseStrChars fuel rest' with
                      | some (s, r) =>
                          some (Char.ofNat (ha * 4096 + hb * 256 + hc * 16 + hd) :: s, r)
                      | none => none
                  | _, _, _, _ => none
              | _ => none
            else
              match
                (if e = '"' then some '"'
                 else if e = '\\' then some '\\'
                 else if e = '/' then some '/'
                 else if e = 'n' then some '\n'
                 else if e = 't' then some '\t'
                 else if e = 'r' then some '\r'
                 else if e = 'b' then some (Char.ofNat 8)
                 else if e = 'f' then some (Char.ofNat 12)
                 else none) with
              | some d =>
                  match parseStrChars fuel rest with
                  | some (s, r) => some (d :: s, r)
                  | none => none
              | none => none
      else if c.toNat < 32 then none
      else
        match parseStrChars fuel cs with
        | some (s, r) => some (c :: s, r)
        | none => none

/-- A run of decimal digits: value, number of digits, remaining input. -/
def parseDigits : List Char → Nat → Nat → (Nat × Nat × List Char)
  | [], acc, cnt => (acc, cnt, [])
  | c :: cs, acc, cnt =>
      if isDigit c then parseDigits cs (acc * 10 + (c.toNat - 48)) (cnt + 1)
      else (acc, cnt, c :: cs)

/-- A JSON number literal (sign, integer part with the leading-zero
restriction, optional fraction, optional exponent). -/
def parseNum (cs0 : List Char) : Option (ℚ × List Char) :=
  let (neg, cs1) :=
    match cs0 with
    | '-' :: rest => (true, rest)
    | _ => (false, cs0)
  match cs1 with
  | [] => none
  | c :: _ =>
      if ¬ isDigit c then none
      else
        let (ip, ipCnt, cs2) := parseDigits cs1 0 0
        -- JSON forbids leading zeros: "0" is fine, "01" is not.
        if c = '0' ∧ ipCnt ≠ 1 then none
        else
          let (fv, fCnt, cs3) :=
            match cs2 with
            | '.' :: rest =>
                match rest with
                | d :: _ =>
                    if isDigit d then parseDigits rest 0 0 else (0, 0, cs2)
                | [] => (0, 0, cs2)
            | _ => (0, 0, cs2)
          -- a '.' must be followed by at least one digit
          match cs2 with
          | '.' :: rest2 =>
              (match rest2 with
               | d :: _ =>
                   if isDigit d then
                     parseNumExp neg ip fv fCnt cs3
                   else none
               | [] => none)
          | _ => parseNumExp neg ip fv fCnt cs2

where
  /-- Optional exponent and assembly of the rational value. -/
  parseNumExp (neg : Bool) (ip fv fCnt : Nat) (cs : List Char) :
      Option (ℚ × List Char) :=
    let mant : Int := (if neg then -1 else 1) * (ip * 10 ^ fCnt + fv)
    match cs with
    | e :: rest =>
        if e = 'e' ∨ e = 'E' then
          let (eneg, rest2) :=
            match rest with
            | '+' :: r => (false, r)
            | '-' :: r => (true, r)
            | _ => (false, rest)
          match rest2 with
          | d :: _ =>
              if isDigit d then
                let (ev, _, rest3) := parseDigits rest2 0 0
                let p : Int := (if eneg then -(ev : Int) else ev) - fCnt
                some (mkRat (mant * 10 ^ (p.toNat)) (10 ^ ((-p).toNat)), rest3)
              else none
          | [] => none
        else some (mkRat mant (10 ^ fCnt), cs)
    | [] => some (mkRat mant (10 ^ fCnt), cs)

mutual

/-- One JSON value (recursive descent, leading whitespace allowed). -/
def parseVal : Nat → List Char → Option (JSVal × List Char)
  | 0, _ => none
  | fuel + 1, cs =>
      match skipWs cs with
      | [] => none
      | c :: rest =>
          if c = 'n' then
            match rest with
            | 'u' :: 'l' :: 'l' :: r => some (.null, r)
            | _ => none
          else if c = 't' then
            match rest with
            | 'r' :: 'u' :: 'e' :: r => some (.bool true, r)
            | _ => none
          else if c = 'f' then
            match rest with
            | 'a' :: 'l' :: 's' :: 'e' :: r => some (.bool false, r)
            | _ => none
          else if c = '"' then
            match parseStrChars (rest.length + 1) rest with
            | some (s, r) => some (.str (String.mk s), r)
            | none => none
          else if c = '[' then
            match skipWs rest with
            | ']' :: r => some (.arr [], r)
            | r => match parseArrItems fuel r with
                   | some (xs, r2) => some (.arr xs, r2)
                   | none => none
          else if c = '{' then
            match skipWs rest with
            | '}' :: r => some (.obj [], r)
            | r => match parseObjItems fuel r with
                   | some (fs, r2) => some (.obj fs, r2)
                   | none => none
          else
            match parseNum (c :: rest) with
            | some (q, r) => some (.num q, r)
            | none => none

/-- Comma-separated array items up to the closing bracket. -/
def parseArrItems : Nat → List Char → Option (List JSVal × List Char)
  | 0, _ => none
  | fuel + 1, cs =>
      match parseVal fuel cs with
      | none => none
      | some (v, r) =>
          match skipWs r with
          | ',' :: r2 =>
              match parseArrItems fuel r2 with
              | some (xs, r3) => some (v :: xs, r3)
              | none => none
          | ']' :: r2 => some ([v], r2)
          | _ => none

/-- Comma-separated `"key": value` pairs up to the closing brace. -/
def parseObjItems : Nat → List Char → Option (List (String × JSVal) × List Char)
  | 0, _ => none
  | fuel + 1, cs =>
      match skipWs cs with
      | '"' :: rest =>
          match parseStrChars (rest.length + 1) rest with
          | none => none
          | some (k, r) =>
              match skipWs r with
              | ':' :: r2 =>
                  match parseVal fuel r2 with
                  | none => none
                  | some (v, r3) =>
                      match skipWs r3 with
                      | ',' :: r4 =>
                          match parseObjItems fuel r4 with
                          | some (fs, r5) => some ((String.mk k, v) :: fs, r5)
                          | none => none
                      | '}' :: r4 => some ([(String.mk k, v)], r4)
                      | _ => none
              | _ => none
      | _ => none

end

/-- Model of `JSON.parse`: parse one value, then require only trailing
whitespace.  `none` models a thrown `SyntaxError`. -/
def jsonParse (s : String) : Option JSVal :=
  match parseVal (2 * s.data.length + 2) s.data with
  | some (v, r) =>
      match skipWs r with
      | [] => some v
      | _ => none
  | none => none

/-! ## Payload enrichment (src/tools/invoices.ts lines 69-88)

```ts
function enrichSingle(item: Record<string, unknown>): Record<string, unknown> {
  if (typeof item.payload !== "string") return item;
  try {
    const parsed = JSON.parse(item.payload);
    const body = parsed?.fattura_elettronica_body?.[0];
    const doc = body?.dati_generali?.dati_generali_documento;
    return {
      ...item,
      payload: parsed,
      invoice_number: doc?.numero ?? null,
      invoice_date: doc?.data ?? null,
      total_amount: doc?.importo_totale_documento ?? null,
      currency: doc?.divisa ?? null,
    };
  } catch {
    return item;
  }
}
```
-/

/-- JS optional-chain property access `base?.k`: `undefined` on
`null`/`undefined` and on values without that property. -/
def jOptGet (v : JSVal) (k : String) : JSVal :=
  match v with
  | .obj fs => (lookupKey fs k).getD .undef
  | _ => JSVal.undef

/-- JS optional-chain index access `base?.[n]`. -/
def jOptIdx (v : JSVal) (n : Nat) : JSVal :=
  match v with
  | .arr xs => (xs.getD n .undef)
  | .obj fs => (lookupKey fs (toString n)).getD .undef
  | .str s => match s.data[n]? with
              | some c => .str (String.mk [c])
              | none => .undef
  | _ => JSVal.undef

/-- JS nullish coalescing `v ?? null`. -/
def nullCoalesce (v : JSVal) : JSVal :=
  match v with
  | .undef => .null
  | .null => .null
  | v => v

/-- The `parsed?.fattura_elettronica_body?.[0]?.dati_generali?.
dati_generali_documento` chain of `enrichSingle` (the first `?.` pair reaches
`body`, the rest reach `doc`). -/
def enrichDoc (parsed : JSVal) : JSVal :=
  jOptGet (jOptGet (jOptIdx (jOptGet parsed "fattura_elettronica_body") 0)
    "dati_generali") "dati_generali_documento"

/-- `enrichSingle` from src/tools/invoices.ts; the result object literal
(spread of `item` followed by five explicit keys) is the corresponding
sequence of JS property writes. -/
def enrichSingle (item : List (String × JSVal)) : List (String × JSVal) :=
  match lookupKey item "payload" with
  | some (.str s) =>
      match jsonParse s with
      | none => item
      | some parsed =>
          let doc := enrichDoc parsed
          setKey (setKey (setKey (setKey (setKey item "payload" parsed)
            "invoice_number" (nullCoalesce (jOptGet doc "numero")))
            "invoice_date" (nullCoalesce (jOptGet doc "data")))
            "total_amount" (nullCoalesce (jOptGet doc "importo_totale_documento")))
            "currency" (nullCoalesce (jOptGet doc "divisa"))
  | _ => item

theorem lookupKey_setKey {α : Type} (l : List (String × α)) (k k' : String) (v : α) :
    lookupKey (setKey l k v) k' = if k = k' then some v else lookupKey l k' := by
  induction l with
  | nil => by_cases h : k = k' <;> simp [setKey, lookupKey, h]
  | cons kv rest ih =>
      obtain ⟨a, b⟩ := kv
      by_cases hak : a = k
      · subst hak
        by_cases hk' : a = k' <;> simp [setKey, lookupKey, hk']
      · by_cases hk' : a = k'
        · subst hk'
          simp [setKey, lookupKey, hak, Ne.symm hak]
        · simp [setKey, lookupKey, hak, hk', ih]

/-- The spec's enrichment example payload:
`{"fattura_elettronica_body":[{"dati_generali":{"dati_generali_documento":
{"numero":"2026/1","data":"2026-01-15","importo_totale_documento":500.0,
"divisa":"EUR"}}}]}`. -/
def examplePayload : String :=
  "\x7b\"fattura_elettronica_body\":[\x7b\"dati_generali\":\x7b\"dati_generali_documento\":\x7b\"numero\":\"2026/1\",\"data\":\"2026-01-15\",\"importo_totale_documento\":500.0,\"divisa\":\"EUR\"\x7d\x7d\x7d]\x7d"

/-- C3: for every entity whose `payload` property is a string: if the string
parses as JSON the payload is replaced by the parsed value and the four
derived fields `invoice_number`, `invoice_date`, `total_amount`, `currency`
are set at the entity's top level from the first `fattura_elettronica_body`
element's `dati_generali.dati_generali_documento` (`numero`, `data`,
`importo_totale_documento`, `divisa`), each derived field being `null` when
any intermediate node of the chain is missing (optional chaining yields
`undefined`, which `?? null` turns into `null`); if the string fails to
parse, the entity is returned unchanged. -/
theorem claim_C3_enrichSingle_payload :
    (∀ (item : List (String × JSVal)) (s : String),
        lookupKey item "payload" = some (.str s) → jsonParse s = none →
        enrichSingle item = item)
    ∧ (∀ (item : List (String × JSVal)) (s : String) (parsed : JSVal),
        lookupKey item "payload" = some (.str s) → jsonParse s = some parsed →
        lookupKey (enrichSingle item) "payload" = some parsed
        ∧ lookupKey (enrichSingle item) "invoice_number"
            = some (nullCoalesce (jOptGet (enrichDoc parsed) "numero"))
        ∧ lookupKey (enrichSingle item) "invoice_date"
            = some (nullCoalesce (jOptGet (enrichDoc parsed) "data"))
        ∧ lookupKey (enrichSingle item) "total_amount"
            = some (nullCoalesce (jOptGet (enrichDoc parsed) "importo_totale_documento"))
        ∧ lookupKey (enrichSingle item) "currency"
            = some (nullCoalesce (jOptGet (enrichDoc parsed) "divisa")))
    ∧ ((∀ k : String, jOptGet JSVal.undef k = JSVal.undef
          ∧ jOptGet JSVal.null k = JSVal.undef)
        ∧ jOptIdx JSVal.undef 0 = JSVal.undef
        ∧ nullCoalesce JSVal.undef = JSVal.null)
    ∧ enrichSingle [("payload", .str examplePayload)]
        = [("payload", .obj [("fattura_elettronica_body", .arr [.obj
            [("dati_generali", .obj [("dati_generali_documento", .obj
              [("numero", .str "2026/1"), ("data", .str "2026-01-15"),
               ("importo_totale_documento", .num 500),
               ("divisa", .str "EUR")])])]])]),
           ("invoice_number", .str "2026/1"),
           ("invoice_date", .str "2026-01-15"),
           ("total_amount", .num 500),
           ("currency", .str "EUR")]
    ∧ enrichSingle [("payload", .str "\x7b\"foo\":1\x7d")]
        = [("payload", .obj [("foo", .num 1)]),
           ("invoice_number", .null), ("invoice_date", .null),
           ("total_amount", .null), ("currency", .null)] := by
  refine ⟨?_, ?_, ⟨fun k => ⟨rfl, rfl⟩, rfl, rfl⟩, ?_, ?_⟩
  · intro item s h1 h2
    simp [enrichSingle, h1, h2]
  · intro item s parsed h1 h2
    simp only [enrichSingle, h1, h2]
    refine ⟨?_, ?_, ?_, ?_, ?_⟩ <;> simp [lookupKey_setKey]
  · set_option maxRecDepth 100000 in decide
  · set_option maxRecDepth 10000 in decide

theorem claim_C3_enrichSingle_payload_witness :
    enrichSingle [("payload", JSVal.str "not json")]
      = [("payload", JSVal.str "not json")] :=
  claim_C3_enrichSingle_payload.1 [("payload", JSVal.str "not json")]
    "not json" (by decide) (by decide)

/-! ## The HTTP client (src/client.ts)

`AcubeClient` is embedded as a state machine.  `fetch` is replaced by an
explicit `HttpResponse` supplied by the environment; thrown errors become
`Except.error`; `Date.now()` becomes an explicit `now : Int` (milliseconds). -/

/-- A `fetch` response: status code, value of the response's `content-type`
header if present, body text (`response.text()`), and body bytes
(`response.arrayBuffer()`, for the binary branch). -/
structure HttpResponse where
  status : Nat
  contentType : Option String
  body : String
  bodyBytes : List Nat
deriving DecidableEq

/-- `Response.ok`: status in the range 200-299. -/
def respOk (r : HttpResponse) : Bool :=
  200 ≤ r.status && r.status ≤ 299

/-- JavaScript truthiness of a modelled value (`undefined`, `null`, `false`,
`0` and the empty string are falsy; all objects and arrays are truthy). -/
def truthy : JSVal → Bool
  | .undef => false
  | .null => false
  | .bool b => b
  | .num q => q != 0
  | .str s => s != ""
  | .arr _ => true
  | .obj _ => true

/-- Truthiness of the optional `body` parameter (`none` models omitting it). -/
def bodyTruthy : Option JSVal → Bool
  | none => false
  | some v => truthy v

/-- Truthiness test `!headers["Content-Type"]` on a header slot (absent or
empty-string values are falsy). -/
def headerFalsy : Option String → Bool
  | none => true
  | some s => s == ""

/-- The header object literal
`{ Authorization: Bearer token, Accept: accept, ...extraHeaders }`
(src/client.ts lines 139-143); spread keys overwrite in place. -/
def baseHeaders (token accept : String) (extra : List (String × String)) :
    List (String × String) :=
  extra.foldl (fun acc kv => setKey acc kv.1 kv.2)
    [("Authorization", "Bearer " ++ token), ("Accept", accept)]

/-- Lines 145-147: `if (body && !headers["Content-Type"]) headers["Content-Type"]
= "application/json"`. -/
def buildHeaders (token accept : String) (extra : List (String × String))
    (body : Option JSVal) : List (String × String) :=
  let headers := baseHeaders token accept extra
  if bodyTruthy body && headerFalsy (lookupKey headers "Content-Type") then
    setKey headers "Content-Type" "application/json"
  else headers

/-- Lines 154-157: `if (body) fetchOptions.body = typeof body === "string" ?
body : JSON.stringify(body)`.  `none` means no body is attached to the
request. -/
def serializeBody : Option JSVal → Option String
  | none => none
  | some v =>
      if truthy v then
        some (match v with
          | .str s => s
          | v' => (jsonStringify v').getD "undefined")
      else none

/-- `sub.startsWith`-style prefix test on character lists. -/
def listStartsWith : List Char → List Char → Bool
  | _, [] => true
  | [], _ :: _ => false
  | c :: cs, d :: ds => c = d && listStartsWith cs ds

/-- `hay.includes(sub)` on character lists. -/
def listHasSub : List Char → List Char → Bool
  | [], sub => listStartsWith [] sub
  | c :: cs, sub => listStartsWith (c :: cs) sub || listHasSub cs sub

/-- JavaScript `hay.includes(sub)` (case-sensitive substring test). -/
def strHasSub (hay sub : String) : Bool :=
  listHasSub hay.data sub.data

/-- The JSON-parse condition of lines 186-189: accept is exactly
`application/json`, or the response's own `content-type` header contains
`"json"`. -/
def wantsJson (accept : String) (r : HttpResponse) : Bool :=
  accept == "application/json" ||
    (match r.contentType with
     | some ct => strHasSub ct "json"
     | none => false)

/-- Data part of the result of `request` (`data` is parsed JSON, raw text, or
a base64 string for binary responses). -/
inductive RespData : Type where
  | jsonData : JSVal → RespData
  | textData : String → RespData
  | binaryData : String → RespData
deriving DecidableEq

/-- Result record `{ status, data, raw? }` of `AcubeClient.request`. -/
structure RequestOutcome where
  status : Nat
  data : RespData
  raw : Option (List Nat)
deriving DecidableEq

/-- Standard base64 alphabet. -/
def base64Char (n : Nat) : Char :=
  if n < 26 then Char.ofNat (65 + n)
  else if n < 52 then Char.ofNat (97 + (n - 26))
  else if n < 62 then Char.ofNat (48 + (n - 52))
  else if n = 62 then '+'
  else '/'

/-- `Buffer.from(raw).toString("base64")`. -/
def base64Encode : List Nat → String
  | [] => ""
  | [a] =>
      String.mk [base64Char (a % 256 / 4), base64Char (a % 256 % 4 * 16)] ++ "=="
  | [a, b] =>
      String.mk [base64Char (a % 256 / 4),
        base64Char (a % 256 % 4 * 16 + b % 256 / 16),
        base64Char (b % 256 % 16 * 4)] ++ "="
  | a :: b :: c :: rest =>
      String.mk [base64Char (a % 256 / 4),
        base64Char (a % 256 % 4 * 16 + b % 256 / 16),
        base64Char (b % 256 % 16 * 4 + c % 256 / 64),
        base64Char (c % 256 % 64)] ++ base64Encode rest

/-- Success payload of the text path (lines 186-198): attempt `JSON.parse`
when `wantsJson`, silently falling back to the raw text; otherwise return the
raw text. -/
def successData (accept : String) (r : HttpResponse) : RespData :=
  if wantsJson accept r then
    match jsonParse r.body with
    | some v => .jsonData v
    | none => .textData r.body
  else .textData r.body

/-- The part of `AcubeClient.request` after `fetch` returns (src/client.ts
lines 159-198): binary accept types return base64 data (any non-ok status
throws), otherwise a non-2xx status other than 202 throws
`Acube API error (status): text`, and the success payload is `successData`. -/
def processResponse (accept : String) (r : HttpResponse) :
    Except String RequestOutcome :=
  if accept = "application/pdf" ∨ accept = "application/octet-stream" then
    if ¬ respOk r then
      .error ("Acube API error (" ++ toString r.status ++ "): " ++ r.body)
    else
      .ok ⟨r.status, .binaryData (base64Encode r.bodyBytes), some r.bodyBytes⟩
  else
    if ¬ respOk r ∧ r.status ≠ 202 then
      .error ("Acube API error (" ++ toString r.status ++ "): " ++ r.body)
    else
      .ok ⟨r.status, successData accept r, none⟩

/-- Token cache of `AcubeClient` (`token: string | null`,
`tokenExpiresAt: number`). -/
structure ClientState where
  token : Option String
  tokenExpiresAt : Int
deriving DecidableEq

/-- A freshly constructed client: `token = null`, `tokenExpiresAt = 0`. -/
def initialClientState : ClientState := ⟨none, 0⟩

/-- Truthiness of `this.token` (`null` and the empty string are falsy). -/
def tokenTruthy : Option String → Bool
  | none => false
  | some t => t != ""

/-- `login()` on a successful login response carrying `srvToken`
(src/client.ts lines 91-94): cache the token and set
`tokenExpiresAt = now + 23 * 60 * 60 * 1000`. -/
def loginModel (now : Int) (srvToken : String) : ClientState × String :=
  (⟨some srvToken, now + 23 * 60 * 60 * 1000⟩, srvToken)

/-- `getToken()` (src/client.ts lines 98-103): return the cached token when
`this.token && Date.now() < this.tokenExpiresAt`, otherwise `login()`.  The
final component counts the login calls this invocation performs. -/
def getTokenModel (st : ClientState) (now : Int) (srvToken : String) :
    ClientState × String × Nat :=
  if tokenTruthy st.token ∧ now < st.tokenExpiresAt then
    (st, st.token.getD "", 0)
  else
    ((loginModel now srvToken).1, (loginModel now srvToken).2, 1)

/-! ## Claims about the client -/

theorem listStartsWith_append (sub ys : List Char) :
    listStartsWith (sub ++ ys) sub = true := by
  induction sub with
  | nil => cases ys <;> simp [listStartsWith]
  | cons c cs ih => simp [listStartsWith, ih]

theorem listHasSub_append (xs sub ys : List Char) :
    listHasSub (xs ++ (sub ++ ys)) sub = true := by
  induction xs with
  | nil =>
      simp only [List.nil_append]
      cases h : sub ++ ys with
      | nil =>
          rcases List.append_eq_nil.mp h with ⟨h1, h2⟩
          subst h1
          simp [listHasSub, listStartsWith]
      | cons c cs =>
          have hsw := listStartsWith_append sub ys
          rw [h] at hsw
          simp [listHasSub, hsw]
  | cons x xs ih =>
      simp [listHasSub, ih]

/-- C1: for every request dispatched with a non-binary accept type, the call
succeeds iff the HTTP status is in 200..299 or equals 202 (the code's test is
`!response.ok && response.status !== 202`, and `ok` is exactly 200..299); on
success the response body (possibly JSON-parsed per the accept/content-type
rules) is returned as `data` and no error is raised; for any other status the
call fails with the exact message `Acube API error (<status>): <body>`. -/
theorem claim_C1_success_iff_2xx_or_202 (accept : String) (r : HttpResponse)
    (h1 : accept ≠ "application/pdf") (h2 : accept ≠ "application/octet-stream") :
    ((∃ out, processResponse accept r = .ok out)
        ↔ ((200 ≤ r.status ∧ r.status ≤ 299) ∨ r.status = 202))
    ∧ (((200 ≤ r.status ∧ r.status ≤ 299) ∨ r.status = 202) →
        processResponse accept r = .ok ⟨r.status, successData accept r, none⟩)
    ∧ (¬ ((200 ≤ r.status ∧ r.status ≤ 299) ∨ r.status = 202) →
        processResponse accept r
          = .error ("Acube API error (" ++ toString r.status ++ "): " ++ r.body)) := by
  have hb : ¬ (accept = "application/pdf" ∨ accept = "application/octet-stream") := by
    rintro (h | h)
    · exact h1 h
    · exact h2 h
  have hok : (respOk r = true) ↔ (200 ≤ r.status ∧ r.status ≤ 299) := by
    simp [respOk]
  have hproc : processResponse accept r =
      if (¬ (respOk r = true) ∧ r.status ≠ 202) then
        .error ("Acube API error (" ++ toString r.status ++ "): " ++ r.body)
      else .ok ⟨r.status, successData accept r, none⟩ := by
    unfold processResponse
    rw [if_neg hb]
  by_cases hc : (200 ≤ r.status ∧ r.status ≤ 299) ∨ r.status = 202
  · have hcond : ¬ (¬ (respOk r = true) ∧ r.status ≠ 202) := by
      rcases hc with h | h
      · exact fun hx => hx.1 (hok.mpr h)
      · exact fun hx => hx.2 h
    rw [hproc, if_neg hcond]
    exact ⟨⟨fun _ => hc, fun _ => ⟨⟨r.status, successData accept r, none⟩, rfl⟩⟩,
      fun _ => rfl, fun h => absurd hc h⟩
  · have hcond : (¬ (respOk r = true) ∧ r.status ≠ 202) := by
      constructor
      · exact fun hx => hc (Or.inl (hok.mp hx))
      · exact fun hx => hc (Or.inr hx)
    rw [hproc, if_pos hcond]
    refine ⟨⟨?_, fun h => absurd h hc⟩, fun h => absurd h hc, fun _ => rfl⟩
    rintro ⟨out, hout⟩
    exact Except.noConfusion hout

theorem claim_C1_success_iff_2xx_or_202_witness :
    processResponse "application/json" ⟨404, none, "Not Found", []⟩
      = .error ("Acube API error (" ++ toString (404 : Nat) ++ "): " ++ "Not Found")
    ∧ processResponse "application/json" ⟨202, none, "accepted", []⟩
      = .ok ⟨202, successData "application/json" ⟨202, none, "accepted", []⟩, none⟩ :=
  ⟨(claim_C1_success_iff_2xx_or_202 "application/json" ⟨404, none, "Not Found", []⟩
      (by decide) (by decide)).2.2 (by decide),
   (claim_C1_success_iff_2xx_or_202 "application/json" ⟨202, none, "accepted", []⟩
      (by decide) (by decide)).2.1 (by decide)⟩

/-- C2 (amended): the first request of a freshly constructed client performs
exactly one login and sets expiry 23 hours ahead; a request issued while
`now < tokenExpiresAt` with a cached NON-EMPTY token performs zero logins and
reuses the cached token; a request at or after expiry performs exactly one new
login.  (The non-emptiness proviso is forced: the code re-checks the
truthiness of `this.token`, so an empty-string token is treated as absent —
see the counterexample.) -/
theorem claim_C2_token_cache_amended :
    (∀ (now : Int) (tok : String),
        getTokenModel initialClientState now tok
          = (⟨some tok, now + 23 * 60 * 60 * 1000⟩, tok, 1))
    ∧ (∀ (st : ClientState) (t : String) (now : Int) (tok2 : String),
        st.token = some t → t ≠ "" → now < st.tokenExpiresAt →
        getTokenModel st now tok2 = (st, t, 0))
    ∧ (∀ (st : ClientState) (now : Int) (tok2 : String),
        st.tokenExpiresAt ≤ now →
        getTokenModel st now tok2
          = (⟨some tok2, now + 23 * 60 * 60 * 1000⟩, tok2, 1)) := by
  refine ⟨fun now tok => ?_, fun st t now tok2 h1 h2 h3 => ?_,
    fun st now tok2 h => ?_⟩
  · simp [getTokenModel, initialClientState, tokenTruthy, loginModel]
  · simp [getTokenModel, tokenTruthy, h1, h2, h3]
  · have : ¬ (now < st.tokenExpiresAt) := not_lt.mpr h
    simp [getTokenModel, this, loginModel]

/-- C2 as stated fails on the code: after a login whose response token is the
empty string, a request inside the refresh window (`now = 1 <
tokenExpiresAt`) performs one more login rather than zero, because
`this.token &&` is a truthiness test. -/
theorem claim_C2_token_cache_counterexample :
    (loginModel 0 "").1.token = some ""
    ∧ (1 : Int) < ((loginModel 0 "").1).tokenExpiresAt
    ∧ (getTokenModel (loginModel 0 "").1 1 "fresh").2.2 = 1 := by
  decide

theorem claim_C2_token_cache_amended_witness :
    getTokenModel ⟨some "jwt", 100⟩ 5 "other" = (⟨some "jwt", 100⟩, "jwt", 0)
    ∧ getTokenModel ⟨some "jwt", 100⟩ 100 "other"
        = (⟨some "other", (100 : Int) + 23 * 60 * 60 * 1000⟩, "other", 1) :=
  ⟨claim_C2_token_cache_amended.2.1 ⟨some "jwt", 100⟩ "jwt" 5 "other" rfl
      (by decide) (by decide),
   claim_C2_token_cache_amended.2.2 ⟨some "jwt", 100⟩ 100 "other" (by decide)⟩

/-- C5 (amended): for every request carrying a TRUTHY body (JavaScript
truthiness: in particular a non-empty string or any object): if no
`Content-Type` key is present among the assembled headers, `Content-Type:
application/json` is added; an explicit non-empty `Content-Type` is left
alone; and the body is passed to `fetch` unchanged when it is a string,
otherwise JSON-serialized.  (The truthiness proviso is forced: a falsy body
such as `""` is silently dropped — see the counterexample.) -/
theorem claim_C5_body_serialization_amended (token accept : String)
    (extra : List (String × String)) (body : JSVal) (h : truthy body = true) :
    (lookupKey (baseHeaders token accept extra) "Content-Type" = none →
        buildHeaders token accept extra (some body)
          = setKey (baseHeaders token accept extra) "Content-Type" "application/json"
        ∧ lookupKey (buildHeaders token accept extra (some body)) "Content-Type"
          = some "application/json")
    ∧ (∀ ct, ct ≠ "" →
        lookupKey (baseHeaders token accept extra) "Content-Type" = some ct →
        buildHeaders token accept extra (some body) = baseHeaders token accept extra)
    ∧ (∀ s, body = .str s → serializeBody (some body) = some s)
    ∧ ((∀ s, body ≠ .str s) → serializeBody (some body) = jsonStringify body) := by
  refine ⟨fun hct => ?_, fun ct hne hct => ?_, fun s hs => ?_, fun hns => ?_⟩
  · constructor
    · simp [buildHeaders, bodyTruthy, h, headerFalsy, hct]
    · simp [buildHeaders, bodyTruthy, h, headerFalsy, hct, lookupKey_setKey]
  · simp [buildHeaders, bodyTruthy, h, headerFalsy, hct, hne]
  · subst hs
    simp [serializeBody, h]
  · cases body with
    | undef => simp [truthy] at h
    | null => simp [truthy] at h
    | bool b => cases b <;> simp_all [truthy, serializeBody, jsonStringify]
    | num q => simp [serializeBody, h, jsonStringify]
    | str s => exact absurd rfl (hns s)
    | arr xs => simp [serializeBody, h, jsonStringify]
    | obj fs => simp [serializeBody, h, jsonStringify]

/-- C5 as stated fails on the code: a request whose body is the empty string
does carry a (string) body, yet `if (body)` is falsy, so no body is attached
and no `Content-Type` header is added. -/
theorem claim_C5_body_serialization_counterexample :
    serializeBody (some (JSVal.str "")) = none
    ∧ buildHeaders "tok" "application/xml" [] (some (JSVal.str ""))
        = [("Authorization", "Bearer tok"), ("Accept", "application/xml")]
    ∧ lookupKey (buildHeaders "tok" "application/xml" [] (some (JSVal.str "")))
        "Content-Type" = none := by
  decide

theorem claim_C5_body_serialization_amended_witness :
    (buildHeaders "tok" "application/xml" [] (some (JSVal.str "<xml/>"))
        = setKey (baseHeaders "tok" "application/xml" []) "Content-Type"
            "application/json"
      ∧ lookupKey (buildHeaders "tok" "application/xml" []
          (some (JSVal.str "<xml/>"))) "Content-Type" = some "application/json")
    ∧ serializeBody (some (JSVal.str "<xml/>")) = some "<xml/>"
    ∧ serializeBody (some (JSVal.obj [("a", JSVal.num 1)]))
        = jsonStringify (JSVal.obj [("a", JSVal.num 1)]) :=
  ⟨(claim_C5_body_serialization_amended "tok" "application/xml" []
      (JSVal.str "<xml/>") (by decide)).1 (by decide),
   (claim_C5_body_serialization_amended "tok" "application/xml" []
      (JSVal.str "<xml/>") (by decide)).2.2.1 "<xml/>" rfl,
   (claim_C5_body_serialization_amended "tok" "application/xml" []
      (JSVal.obj [("a", JSVal.num 1)]) (by decide)).2.2.2 (fun s => by simp)⟩

/-- C6: for every successful non-binary response, JSON parsing of the body is
attempted iff the accept type is `application/json` or the response's own
`Content-Type` header contains `"json"`; a failed parse silently returns the
raw text as `data` (no error); any other accept/content-type combination
returns the raw text unconditionally. -/
theorem claim_C6_json_parse_conditions (accept : String) (r : HttpResponse) :
    (wantsJson accept r = true ↔ (accept = "application/json" ∨
        ∃ ct, r.contentType = some ct ∧ strHasSub ct "json" = true))
    ∧ (wantsJson accept r = true →
        (∀ v, jsonParse r.body = some v → successData accept r = .jsonData v)
        ∧ (jsonParse r.body = none → successData accept r = .textData r.body))
    ∧ (wantsJson accept r = false → successData accept r = .textData r.body)
    ∧ (∀ a b : String, strHasSub (a ++ "json" ++ b) "json" = true)
    ∧ (((200 ≤ r.status ∧ r.status ≤ 299) ∨ r.status = 202) →
        accept ≠ "application/pdf" → accept ≠ "application/octet-stream" →
        processResponse accept r = .ok ⟨r.status, successData accept r, none⟩) := by
  refine ⟨?_, fun h => ⟨fun v hv => ?_, fun hn => ?_⟩, fun h => ?_,
    fun a b => ?_, fun hs hb1 hb2 => ?_⟩
  · cases hct : r.contentType <;> simp [wantsJson, hct]
  · simp [successData, h, hv]
  · simp [successData, h, hn]
  · simp [successData, h]
  · show listHasSub (a ++ "json" ++ b).data "json".data = true
    have hdata : (a ++ "json" ++ b).data = a.data ++ ("json".data ++ b.data) := by
      simp [String.data_append]
    rw [hdata]
    exact listHasSub_append a.data "json".data b.data
  · have hb : ¬ (accept = "application/pdf" ∨ accept = "application/octet-stream") := by
      rintro (h | h)
      · exact hb1 h
      · exact hb2 h
    have hok : (respOk r = true) ↔ (200 ≤ r.status ∧ r.status ≤ 299) := by
      simp [respOk]
    have hcond : ¬ (¬ (respOk r = true) ∧ r.status ≠ 202) := by
      rcases hs with h | h
      · exact fun hx => hx.1 (hok.mpr h)
      · exact fun hx => hx.2 h
    unfold processResponse
    rw [if_neg hb, if_neg hcond]

theorem claim_C6_json_parse_conditions_witness :
    successData "application/xml" ⟨200, some "application/json", "[1]", []⟩
        = .jsonData (.arr [.num 1])
    ∧ successData "text/html" ⟨200, some "text/html", "<p>hi</p>", []⟩
        = .textData "<p>hi</p>"
    ∧ successData "application/json" ⟨200, none, "oops not json", []⟩
        = .textData "oops not json"
    ∧ processResponse "application/json" ⟨202, none, "accepted", []⟩
        = .ok ⟨202, successData "application/json" ⟨202, none, "accepted", []⟩, none⟩ :=
  ⟨((claim_C6_json_parse_conditions "application/xml"
        ⟨200, some "application/json", "[1]", []⟩).2.1 (by decide)).1
      (.arr [.num 1]) (by decide),
   (claim_C6_json_parse_conditions "text/html"
        ⟨200, some "text/html", "<p>hi</p>", []⟩).2.2.1 (by decide),
   ((claim_C6_json_parse_conditions "application/json"
        ⟨200, none, "oops not json", []⟩).2.1 (by decide)).2 (by decide),
   (claim_C6_json_parse_conditions "application/json"
        ⟨202, none, "accepted", []⟩).2.2.2.2 (by decide) (by decide) (by decide)⟩

/-! ## `pickFields` (src/response.ts lines 34-71)

```ts
export function pickFields(data: unknown, fields: string[]): unknown {
  if (data === null || data === undefined) return data;
  if (Array.isArray(data)) {
    return data.map((item) => pickFields(item, fields));
  }
  if (typeof data !== "object") return data;
  const record = data as Record<string, unknown>;
  const result: Record<string, unknown> = {};
  for (const field of fields) {
    const dotIndex = field.indexOf(".");
    if (dotIndex === -1) {
      if (field in record) {
        result[field] = record[field];
      }
    } else {
      const topKey = field.slice(0, dotIndex);
      const rest = field.slice(dotIndex + 1);
      if (topKey in record) {
        const existing = result[topKey];
        if (existing && typeof existing === "object" && !Array.isArray(existing)) {
          const merged = pickFields(record[topKey], [rest]) as Record<string, unknown>;
          Object.assign(existing, merged);
        } else {
          result[topKey] = pickFields(record[topKey], [rest]);
        }
      }
    }
  }
  return result;
}
```

The function is NOT pure: `result[field] = record[field]` stores the same
object reference in `result`, and the later `Object.assign(existing, merged)`
mutates that object in place — so the caller's input can change.  The
embedding therefore threads the (possibly mutated) input through every call
and returns the pair (result, input after the call), tracking in an `aliased`
set which `result` keys hold the same object as the corresponding `record`
entry.  Every recursive call made on an object entry has a singleton field
list (`[rest]`); `pickFields1` is that restriction, and `pickFields_single`
proves that running the general function on `[rest]` agrees with it. -/

/-- `field.indexOf(".")` with the two slices: `none` for a dot-free field,
otherwise the parts before and after the first dot. -/
def splitAtDotCh : List Char → Option (List Char × List Char)
  | [] => none
  | c :: cs =>
      if c = '.' then some ([], cs)
      else
        match splitAtDotCh cs with
        | none => none
        | some (a, b) => some (c :: a, b)

def splitAtDot (s : String) : Option (String × String) :=
  match splitAtDotCh s.data with
  | none => none
  | some (a, b) => some (String.mk a, String.mk b)

theorem splitAtDotCh_length (cs : List Char) :
    ∀ a b, splitAtDotCh cs = some (a, b) → b.length < cs.length := by
  induction cs with
  | nil => intro a b h; simp [splitAtDotCh] at h
  | cons c cs ih =>
      intro a b h
      simp only [splitAtDotCh] at h
      split at h
      · cases h
        simp
      · cases hsp : splitAtDotCh cs with
        | none => rw [hsp] at h; cases h
        | some p =>
            obtain ⟨a', b'⟩ := p
            rw [hsp] at h
            cases h
            exact Nat.lt_trans (ih a' b hsp) (Nat.lt_succ_self _)

theorem splitAtDot_rest_length (s t r : String) (h : splitAtDot s = some (t, r)) :
    r.data.length < s.data.length := by
  unfold splitAtDot at h
  cases hsp : splitAtDotCh s.data with
  | none => rw [hsp] at h; cases h
  | some p =>
      obtain ⟨a, b⟩ := p
      rw [hsp] at h
      cases h
      exact splitAtDotCh_length s.data a b hsp

mutual

/-- `pickFields` specialised to a singleton field list `[path]` — the shape of
every recursive call the source makes on object entries.  Returns
(result, data after the call). -/
def pickFields1 : JSVal → String → JSVal × JSVal
  | .null, _ => (.null, .null)
  | .undef, _ => (.undef, .undef)
  | .bool b, _ => (.bool b, .bool b)
  | .num q, _ => (.num q, .num q)
  | .str s, _ => (.str s, .str s)
  | .arr xs, path =>
      let rs := pickList1 xs path
      (.arr (rs.map Prod.fst), .arr (rs.map Prod.snd))
  | .obj fs, path =>
      match hsp : splitAtDot path with
      | none =>
          if hasKey fs path then
            (.obj [(path, (lookupKey fs path).getD .undef)], .obj fs)
          else (.obj [], .obj fs)
      | some (topKey, rest) =>
          if hasKey fs topKey then
            let pr := pickFields1 ((lookupKey fs topKey).getD .undef) rest
            (.obj [(topKey, pr.1)], .obj (setKey fs topKey pr.2))
          else (.obj [], .obj fs)
  termination_by v path => (path.data.length, sizeOf v)
  decreasing_by
    · apply Prod.Lex.right
      simp
    · apply Prod.Lex.left
      exact splitAtDot_rest_length path topKey rest hsp

/-- The `data.map((item) => pickFields(item, fields))` of the array branch,
for a singleton field list. -/
def pickList1 : List JSVal → String → List (JSVal × JSVal)
  | [], _ => []
  | x :: xs, path => pickFields1 x path :: pickList1 xs path
  termination_by xs path => (path.data.length, sizeOf xs)
  decreasing_by
    · apply Prod.Lex.right
      simp
      omega
    · apply Prod.Lex.right
      simp

end

/-- Key-indexed view of the source's own enumerable string-keyed properties,
as `Object.assign` enumerates them. -/
def ownEntries : JSVal → List (String × JSVal)
  | .obj ms => ms
  | .arr xs => (List.range xs.length).zip xs |>.map (fun p => (toString p.1, p.2))
  | .str s => (List.range s.data.length).zip s.data |>.map
      (fun p => (toString p.1, .str (String.mk [p.2])))
  | _ => []

/-- `Object.assign(target, source)`: copy the source's own enumerable
properties into the target in order (numbers, booleans, `null` and
`undefined` contribute nothing); non-object targets are returned unchanged
(the call sites box them, but the target here is always an object). -/
def objAssign (target source : JSVal) : JSVal :=
  match target with
  | .obj es => .obj ((ownEntries source).foldl (fun acc kv => setKey acc kv.1 kv.2) es)
  | t => t

/-- Record that `result[k]` has just been assigned the same object reference
as `record[k]`. -/
def insertStr (k : String) (l : List String) : List String :=
  if k ∈ l then l else k :: l

/-- The `for (const field of fields)` loop of `pickFields` over an object.
State: `record` (the input object, mutable through `Object.assign` on an
aliased entry), `result` (under construction), and `aliased` (the result keys
currently holding the same object as the record's entry). -/
def pickLoop : List String → List (String × JSVal) → List (String × JSVal) →
    List String → List (String × JSVal) × List (String × JSVal) × List String
  | [], record, result, aliased => (record, result, aliased)
  | field :: fs, record, result, aliased =>
      match splitAtDot field with
      | none =>
          if hasKey record field then
            pickLoop fs record
              (setKey result field ((lookupKey record field).getD .undef))
              (insertStr field aliased)
          else pickLoop fs record result aliased
      | some (topKey, rest) =>
          if hasKey record topKey then
            match lookupKey result topKey with
            | some (.obj es) =>
                let pr := pickFields1 ((lookupKey record topKey).getD .undef) rest
                let record1 := setKey record topKey pr.2
                let newv := objAssign (.obj es) pr.1
                let result1 := setKey result topKey newv
                let record2 :=
                  if topKey ∈ aliased then setKey record1 topKey newv else record1
                pickLoop fs record2 result1 aliased
            | _ =>
                let pr := pickFields1 ((lookupKey record topKey).getD .undef) rest
                pickLoop fs (setKey record topKey pr.2) (setKey result topKey pr.1)
                  (aliased.erase topKey)
          else pickLoop fs record result aliased

mutual

/-- `pickFields` from src/response.ts.  Returns (result, data after the
call); the second component records the mutation the JavaScript function can
apply to its input (see the module comment above). -/
def pickFields : JSVal → List String → JSVal × JSVal
  | .null, _ => (.null, .null)
  | .undef, _ => (.undef, .undef)
  | .bool b, _ => (.bool b, .bool b)
  | .num q, _ => (.num q, .num q)
  | .str s, _ => (.str s, .str s)
  | .arr xs, fields =>
      let rs := pickList xs fields
      (.arr (rs.map Prod.fst), .arr (rs.map Prod.snd))
  | .obj fs, fields =>
      let st := pickLoop fields fs [] []
      (.obj st.2.1, .obj st.1)

def pickList : List JSVal → List String → List (JSVal × JSVal)
  | [], _ => []
  | x :: xs, fields => pickFields x fields :: pickList xs fields

end

theorem setKey_lookup_self {α : Type} (fs : List (String × α)) (k : String) (v : α)
    (h : lookupKey fs k = some v) : setKey fs k v = fs := by
  induction fs with
  | nil => simp [lookupKey] at h
  | cons kv rest ih =>
      obtain ⟨k', v'⟩ := kv
      by_cases hk : k' = k
      · subst hk
        simp [lookupKey] at h
        simp [setKey, h]
      · simp [lookupKey, hk] at h
        simp [setKey, hk, ih h]

/-- Non-dependent unfolding of `pickFields1` on an object and a dot-free
path (the definition's own equation carries a dependent match used only for
termination). -/
theorem pickFields1_obj_none (fs : List (String × JSVal)) (path : String)
    (h : splitAtDot path = none) :
    pickFields1 (.obj fs) path =
      if hasKey fs path then
        (.obj [(path, (lookupKey fs path).getD .undef)], .obj fs)
      else (.obj [], .obj fs) := by
  simp only [pickFields1]
  split
  · rfl
  · next t r heq =>
      rw [h] at heq
      cases heq

/-- Non-dependent unfolding of `pickFields1` on an object and a dotted
path. -/
theorem pickFields1_obj_some (fs : List (String × JSVal)) (path t r : String)
    (h : splitAtDot path = some (t, r)) :
    pickFields1 (.obj fs) path =
      if hasKey fs t then
        (.obj [(t, (pickFields1 ((lookupKey fs t).getD .undef) r).1)],
          .obj (setKey fs t (pickFields1 ((lookupKey fs t).getD .undef) r).2))
      else (.obj [], .obj fs) := by
  simp only [pickFields1]
  split
  · next heq =>
      rw [h] at heq
      cases heq
  · next t' r' heq =>
      rw [h] at heq
      cases heq
      rfl

/-- Single non-dependent equation for `pickFields1` on objects, usable by
`simp` for concrete evaluation. -/
theorem pickFields1_obj_eq (fs : List (String × JSVal)) (path : String) :
    pickFields1 (.obj fs) path =
      match splitAtDot path with
      | none =>
          if hasKey fs path then
            (.obj [(path, (lookupKey fs path).getD .undef)], .obj fs)
          else (.obj [], .obj fs)
      | some (t, r) =>
          if hasKey fs t then
            (.obj [(t, (pickFields1 ((lookupKey fs t).getD .undef) r).1)],
              .obj (setKey fs t (pickFields1 ((lookupKey fs t).getD .undef) r).2))
          else (.obj [], .obj fs) := by
  cases hsp : splitAtDot path with
  | none => exact pickFields1_obj_none fs path hsp
  | some tr =>
      obtain ⟨t, r⟩ := tr
      exact pickFields1_obj_some fs path t r hsp

mutual

/-- A singleton-field call never mutates its input: the `Object.assign`
branch needs an existing `result[topKey]`, and with one field the result
starts empty. -/
theorem pickFields1_snd : (v : JSVal) → (p : String) → (pickFields1 v p).2 = v
  | .null, _ => by simp [pickFields1]
  | .undef, _ => by simp [pickFields1]
  | .bool _, _ => by simp [pickFields1]
  | .num _, _ => by simp [pickFields1]
  | .str _, _ => by simp [pickFields1]
  | .arr xs, p => by
      have h := pickList1_snd xs p
      simp [pickFields1, h]
  | .obj fs, p => by
      simp only [pickFields1]
      split
      · by_cases h : hasKey fs p <;> simp [h]
      · next t r hsome =>
          by_cases h : hasKey fs t
          · cases hlk : lookupKey fs t with
            | none => simp [hasKey, hlk] at h
            | some w =>
                have hs := pickFields1_snd w r
                simp [h, hlk, hs, setKey_lookup_self fs t w hlk]
          · simp [h]
  termination_by v p => (p.data.length, sizeOf v)
  decreasing_by
    all_goals first
      | (apply Prod.Lex.right
         simp)
      | (apply Prod.Lex.left
         exact splitAtDot_rest_length _ _ _ (by assumption))

theorem pickList1_snd :
    (xs : List JSVal) → (p : String) → (pickList1 xs p).map Prod.snd = xs
  | [], _ => by simp [pickList1]
  | x :: xs, p => by
      have h1 := pickFields1_snd x p
      have h2 := pickList1_snd xs p
      simp [pickList1, h1, h2]
  termination_by xs p => (p.data.length, sizeOf xs)
  decreasing_by
    · apply Prod.Lex.right
      simp
      omega
    · apply Prod.Lex.right
      simp

end

mutual

/-- The general function on a singleton field list is `pickFields1`: the loop
body for the one field can only take the bare branch or the else branch
(`result` starts empty), which is exactly `pickFields1`'s object case. -/
theorem pickFields_single :
    (v : JSVal) → (p : String) → pickFields v [p] = pickFields1 v p
  | .null, _ => by simp [pickFields, pickFields1]
  | .undef, _ => by simp [pickFields, pickFields1]
  | .bool _, _ => by simp [pickFields, pickFields1]
  | .num _, _ => by simp [pickFields, pickFields1]
  | .str _, _ => by simp [pickFields, pickFields1]
  | .arr xs, p => by
      have h := pickList_single xs p
      simp [pickFields, pickFields1, h]
  | .obj fs, p => by
      simp only [pickFields, pickFields1]
      cases hsp : splitAtDot p with
      | none =>
          by_cases h : hasKey fs p <;>
            simp [pickLoop, hsp, h, setKey, insertStr]
      | some tr =>
          obtain ⟨t, r⟩ := tr
          by_cases h : hasKey fs t <;>
            simp [pickLoop, hsp, h, lookupKey, setKey]

theorem pickList_single :
    (xs : List JSVal) → (p : String) → pickList xs [p] = pickList1 xs p
  | [], _ => by simp [pickList, pickList1]
  | x :: xs, p => by
      have h1 := pickFields_single x p
      have h2 := pickList_single xs p
      simp [pickList, pickList1, h1, h2]

end

/-- The dot-free fields of a path list. -/
def bareKeys (fields : List String) : List String :=
  fields.filterMap (fun f =>
    match splitAtDot f with
    | none => some f
    | some _ => none)

/-- The top-level keys of the dotted fields of a path list. -/
def dottedTops (fields : List String) : List String :=
  fields.filterMap (fun f =>
    match splitAtDot f with
    | none => none
    | some (t, _) => some t)

theorem mem_bareKeys {k : String} {fields : List String} :
    k ∈ bareKeys fields ↔ (k ∈ fields ∧ splitAtDot k = none) := by
  simp only [bareKeys, List.mem_filterMap]
  constructor
  · rintro ⟨a, ha, hg⟩
    cases hsp : splitAtDot a with
    | none =>
        rw [hsp] at hg
        cases hg
        exact ⟨ha, hsp⟩
    | some p =>
        rw [hsp] at hg
        cases hg
  · rintro ⟨hm, hsp⟩
    refine ⟨k, hm, ?_⟩
    rw [hsp]

theorem mem_dottedTops {k : String} {fields : List String} :
    k ∈ dottedTops fields ↔ (∃ f ∈ fields, ∃ r, splitAtDot f = some (k, r)) := by
  simp only [dottedTops, List.mem_filterMap]
  constructor
  · rintro ⟨a, ha, hg⟩
    cases hsp : splitAtDot a with
    | none =>
        rw [hsp] at hg
        cases hg
    | some p =>
        obtain ⟨t, r⟩ := p
        rw [hsp] at hg
        cases hg
        exact ⟨a, ha, r, hsp⟩
  · rintro ⟨f, hm, r, hsp⟩
    refine ⟨f, hm, ?_⟩
    rw [hsp]

theorem mem_insertStr {k f : String} {l : List String} (h : k ∈ insertStr f l) :
    k = f ∨ k ∈ l := by
  unfold insertStr at h
  split at h
  · exact Or.inr h
  · rcases List.mem_cons.mp h with h | h
    · exact Or.inl h
    · exact Or.inr h

/-- The loop leaves the record unchanged whenever no aliased key (and no bare
key that could become aliased) is the top key of a remaining dotted field:
the only record writes are `setKey record k (pickFields1 w rest).2` (a no-op
by `pickFields1_snd`) and the `Object.assign` write-back, which requires the
written key to be aliased. -/
theorem pickLoop_record_const (fields : List String) :
    ∀ (record result : List (String × JSVal)) (aliased : List String),
    (∀ k ∈ aliased, k ∉ dottedTops fields) →
    (∀ k ∈ bareKeys fields, k ∉ dottedTops fields) →
    (pickLoop fields record result aliased).1 = record := by
  induction fields with
  | nil =>
      intro record result aliased _ _
      rfl
  | cons f fs ih =>
      intro record result aliased hal hbare
      have htops : ∀ k, k ∈ dottedTops fs → k ∈ dottedTops (f :: fs) := by
        intro k hk
        rcases mem_dottedTops.mp hk with ⟨g, hg, r, hgr⟩
        exact mem_dottedTops.mpr ⟨g, List.mem_cons_of_mem f hg, r, hgr⟩
      have hbare' : ∀ k ∈ bareKeys fs, k ∉ dottedTops fs := by
        intro k hk hc
        rcases mem_bareKeys.mp hk with ⟨hm, hsp⟩
        exact hbare k (mem_bareKeys.mpr ⟨List.mem_cons_of_mem f hm, hsp⟩) (htops k hc)
      have hcond1 : ∀ k ∈ aliased, k ∉ dottedTops fs :=
        fun k hk hc => hal k hk (htops k hc)
      simp only [pickLoop]
      cases hsp : splitAtDot f with
      | none =>
          by_cases h : hasKey record f
          · rw [if_pos h]
            apply ih
            · intro k hk
              rcases mem_insertStr hk with heq | hk'
              · subst heq
                intro hc
                exact hbare k (mem_bareKeys.mpr ⟨List.mem_cons_self k fs, hsp⟩)
                  (htops k hc)
              · exact hcond1 k hk'
            · exact hbare'
          · rw [if_neg h]
            exact ih record result aliased hcond1 hbare'
      | some tr =>
          obtain ⟨t, r⟩ := tr
          dsimp only
          have htmem : t ∈ dottedTops (f :: fs) :=
            mem_dottedTops.mpr ⟨f, List.mem_cons_self f fs, r, hsp⟩
          have hcond2 : ∀ k ∈ aliased.erase t, k ∉ dottedTops fs :=
            fun k hk => hcond1 k (List.mem_of_mem_erase hk)
          by_cases h : hasKey record t
          · obtain ⟨w, hw⟩ : ∃ w, lookupKey record t = some w := by
              cases hlk : lookupKey record t with
              | none => simp [hasKey, hlk] at h
              | some w => exact ⟨w, rfl⟩
            have hsetw : setKey record t (pickFields1 w r).2 = record := by
              rw [pickFields1_snd w r]
              exact setKey_lookup_self record t w hw
            have htal : t ∉ aliased := fun hc => hal t hc htmem
            rw [if_pos h]
            cases hres : lookupKey result t with
            | none =>
                simp only [hres, hw, Option.getD_some]
                rw [hsetw]
                exact ih record _ _ hcond2 hbare'
            | some rv =>
                cases rv with
                | obj es =>
                    simp only [hres, hw, Option.getD_some]
                    rw [if_neg htal, hsetw]
                    exact ih record _ _ hcond1 hbare'
                | undef =>
                    simp only [hres, hw, Option.getD_some]
                    rw [hsetw]
                    exact ih record _ _ hcond2 hbare'
                | null =>
                    simp only [hres, hw, Option.getD_some]
                    rw [hsetw]
                    exact ih record _ _ hcond2 hbare'
                | bool b =>
                    simp only [hres, hw, Option.getD_some]
                    rw [hsetw]
                    exact ih record _ _ hcond2 hbare'
                | num q =>
                    simp only [hres, hw, Option.getD_some]
                    rw [hsetw]
                    exact ih record _ _ hcond2 hbare'
                | str s =>
                    simp only [hres, hw, Option.getD_some]
                    rw [hsetw]
                    exact ih record _ _ hcond2 hbare'
                | arr xs =>
                    simp only [hres, hw, Option.getD_some]
                    rw [hsetw]
                    exact ih record _ _ hcond2 hbare'
          · rw [if_neg h]
            exact ih record result aliased hcond1 hbare'

mutual

theorem pickFields_snd_const :
    (v : JSVal) → (fields : List String) →
    (∀ k ∈ bareKeys fields, k ∉ dottedTops fields) →
    (pickFields v fields).2 = v
  | .null, _, _ => by simp [pickFields]
  | .undef, _, _ => by simp [pickFields]
  | .bool _, _, _ => by simp [pickFields]
  | .num _, _, _ => by simp [pickFields]
  | .str _, _, _ => by simp [pickFields]
  | .arr xs, fields, h => by
      have hl := pickList_snd_const xs fields h
      simp [pickFields, hl]
  | .obj fs, fields, h => by
      simp only [pickFields]
      rw [pickLoop_record_const fields fs [] []
        (fun k hk => absurd hk (List.not_mem_nil k)) h]

theorem pickList_snd_const :
    (xs : List JSVal) → (fields : List String) →
    (∀ k ∈ bareKeys fields, k ∉ dottedTops fields) →
    (pickList xs fields).map Prod.snd = xs
  | [], _, _ => by simp [pickList]
  | x :: xs, fields, h => by
      have h1 := pickFields_snd_const x fields h
      have h2 := pickList_snd_const xs fields h
      simp [pickList, h1, h2]

end

/-- C9 as stated fails on the code: `pickFields` can mutate its input.  With
input `{a: {b: {c: 1, d: 2}}}` and paths `["a", "a.b.c"]`, the bare `"a"`
stores the input's inner object in `result` by reference, and the later
`Object.assign(existing, merged)` overwrites `input.a.b` with the freshly
picked `{c: 1}` — after the call the input has lost `d`. -/
theorem claim_C9_pickFields_mutates_input_counterexample :
    (pickFields (.obj [("a", .obj [("b", .obj [("c", .num 1), ("d", .num 2)])])])
        ["a", "a.b.c"]).2
      = .obj [("a", .obj [("b", .obj [("c", .num 1)])])]
    ∧ JSVal.obj [("a", .obj [("b", .obj [("c", .num 1)])])]
      ≠ .obj [("a", .obj [("b", .obj [("c", .num 1), ("d", .num 2)])])] := by
  constructor
  · have h1 : splitAtDot "a" = none := rfl
    have h2 : splitAtDot "a.b.c" = some ("a", "b.c") := rfl
    have h3 : splitAtDot "b.c" = some ("b", "c") := rfl
    have h4 : splitAtDot "c" = none := rfl
    simp [pickFields, pickLoop, pickFields1_obj_eq, h1, h2, h3, h4,
      JSVal.hasKey, JSVal.lookupKey, JSVal.setKey, insertStr, objAssign,
      ownEntries]
  · decide

/-- C9 (amended): `pickFields` leaves its input unchanged (structurally)
provided no top-level key is requested both as a bare field and as the head
of a dotted path.  (The proviso is forced: mixing the two aliases
`result[key]` with `record[key]` and the subsequent `Object.assign` then
mutates the input in place — see the counterexample.) -/
theorem claim_C9_pickFields_input_unchanged_amended (v : JSVal)
    (fields : List String)
    (h : ∀ k ∈ bareKeys fields, k ∉ dottedTops fields) :
    (pickFields v fields).2 = v :=
  pickFields_snd_const v fields h

theorem claim_C9_pickFields_input_unchanged_amended_witness :
    (pickFields
        (.obj [("uuid", .num 7), ("sender", .obj [("business_name", .str "x"),
          ("junk", .null)])])
        ["uuid", "sender.business_name"]).2
      = .obj [("uuid", .num 7), ("sender", .obj [("business_name", .str "x"),
          ("junk", .null)])] :=
  claim_C9_pickFields_input_unchanged_amended
    (.obj [("uuid", .num 7), ("sender", .obj [("business_name", .str "x"),
      ("junk", .null)])])
    ["uuid", "sender.business_name"]
    (by decide)

/-! ## Idempotence of `pickFields` (C7)

The proof factors the object loop into independent per-key processes, shows
that re-running a per-key process from its own final result reproduces that
result, and reassembles the association lists.  Core ingredients:

* `pickFields1` (single path) is idempotent on its result;
* chains of single-path picks (`chainPick`) are idempotent — this is what the
  `Object.assign` write-back produces per key in the aliased phase;
* a per-key state machine (`opStep`) simulating the loop's effect on one key.
-/

theorem keys_setKey {α : Type} (l : List (String × α)) (k : String) (v : α) :
    (setKey l k v).map Prod.fst =
      if (lookupKey l k).isSome then l.map Prod.fst else l.map Prod.fst ++ [k] := by
  induction l with
  | nil => simp [setKey, lookupKey]
  | cons kv rest ih =>
      obtain ⟨k', v'⟩ := kv
      by_cases hk : k' = k
      · subst hk
        simp [setKey, lookupKey]
      · simp [setKey, lookupKey, hk, ih]
        split <;> simp

theorem lookupKey_isSome_iff {α : Type} (l : List (String × α)) (k : String) :
    (lookupKey l k).isSome = true ↔ k ∈ l.map Prod.fst := by
  induction l with
  | nil => simp [lookupKey]
  | cons kv rest ih =>
      obtain ⟨k', v'⟩ := kv
      by_cases hk : k' = k
      · subst hk
        simp [lookupKey]
      · simp [lookupKey, hk, ih, Ne.symm hk]

theorem lookupKey_eq_none_iff {α : Type} (l : List (String × α)) (k : String) :
    lookupKey l k = none ↔ k ∉ l.map Prod.fst := by
  rw [← lookupKey_isSome_iff]
  cases lookupKey l k <;> simp

/-- Association lists with identical key sequences, no duplicate keys, and
identical lookups are equal. -/
theorem assoc_ext {α : Type} :
    ∀ (l1 l2 : List (String × α)),
    l1.map Prod.fst = l2.map Prod.fst →
    (l1.map Prod.fst).Nodup →
    (∀ k, lookupKey l1 k = lookupKey l2 k) →
    l1 = l2
  | [], [], _, _, _ => rfl
  | [], (k, v) :: _, hkeys, _, _ => by simp at hkeys
  | (k, v) :: _, [], hkeys, _, _ => by simp at hkeys
  | (k1, v1) :: t1, (k2, v2) :: t2, hkeys, hnd, hlk => by
      simp only [List.map_cons, List.cons.injEq] at hkeys
      obtain ⟨hk, htk⟩ := hkeys
      subst hk
      have hv : v1 = v2 := by
        have h0 := hlk k1
        simp [lookupKey] at h0
        exact h0
      subst hv
      have hnd' : (t1.map Prod.fst).Nodup := (List.nodup_cons.mp hnd).2
      have hnm : k1 ∉ t1.map Prod.fst := (List.nodup_cons.mp hnd).1
      have htail : ∀ k, lookupKey t1 k = lookupKey t2 k := by
        intro k
        by_cases hkk : k = k1
        · subst hkk
          rw [(lookupKey_eq_none_iff t1 k).mpr hnm,
            (lookupKey_eq_none_iff t2 k).mpr (htk ▸ hnm)]
        · have hne : ¬ (k1 = k) := fun h => hkk h.symm
          have h0 := hlk k
          simp only [lookupKey, if_neg hne] at h0
          exact h0
      rw [assoc_ext t1 t2 htk hnd' htail]

/-- The head key a field path addresses (the whole field when dot-free). -/
def headOf (t : String) : String :=
  match splitAtDot t with
  | none => t
  | some (h, _) => h

/-- The singleton entry produced by a single-path pick on an object. -/
def pickEntryF (fs : List (String × JSVal)) (r : String) :
    Option (String × JSVal) :=
  match splitAtDot r with
  | none => if hasKey fs r then some (r, (lookupKey fs r).getD .undef) else none
  | some (h, t0) =>
      if hasKey fs h then
        some (h, (pickFields1 ((lookupKey fs h).getD .undef) t0).1)
      else none

theorem pick1_obj_fst (fs : List (String × JSVal)) (r : String) :
    (pickFields1 (.obj fs) r).1 = .obj (pickEntryF fs r).toList := by
  rw [pickFields1_obj_eq]
  unfold pickEntryF
  cases hsp : splitAtDot r with
  | none => by_cases h : hasKey fs r <;> simp [h]
  | some tr =>
      obtain ⟨h0, t0⟩ := tr
      by_cases h : hasKey fs h0 <;> simp [h]

theorem pick1_fst_null (t : String) : (pickFields1 .null t).1 = .null := by
  simp [pickFields1]

theorem pick1_fst_undef (t : String) : (pickFields1 .undef t).1 = .undef := by
  simp [pickFields1]

theorem pick1_fst_bool (b : Bool) (t : String) :
    (pickFields1 (.bool b) t).1 = .bool b := by
  simp [pickFields1]

theorem pick1_fst_num (q : ℚ) (t : String) : (pickFields1 (.num q) t).1 = .num q := by
  simp [pickFields1]

theorem pick1_fst_str (s : String) (t : String) :
    (pickFields1 (.str s) t).1 = .str s := by
  simp [pickFields1]

theorem pick1_fst_empty (t : String) : (pickFields1 (.obj []) t).1 = .obj [] := by
  rw [pickFields1_obj_eq]
  cases splitAtDot t with
  | none => simp [hasKey, lookupKey]
  | some tr => obtain ⟨h0, t0⟩ := tr; simp [hasKey, lookupKey]

theorem pickList1_fst_map (xs : List JSVal) (t : String) :
    (pickList1 xs t).map Prod.fst = xs.map (fun x => (pickFields1 x t).1) := by
  induction xs with
  | nil => simp [pickList1]
  | cons x xs ih => simp [pickList1, ih]

theorem pick1_fst_arr (xs : List JSVal) (t : String) :
    (pickFields1 (.arr xs) t).1 = .arr (xs.map (fun x => (pickFields1 x t).1)) := by
  simp [pickFields1, pickList1_fst_map]

mutual

/-- Idempotence of a single-path pick on its result. -/
theorem pickFields1_fst_idem :
    (v : JSVal) → (p : String) →
    (pickFields1 (pickFields1 v p).1 p).1 = (pickFields1 v p).1
  | .null, p => by simp [pick1_fst_null]
  | .undef, p => by simp [pick1_fst_undef]
  | .bool b, p => by simp [pick1_fst_bool]
  | .num q, p => by simp [pick1_fst_num]
  | .str s, p => by simp [pick1_fst_str]
  | .arr xs, p => by
      have h := pickList1_fst_idem xs p
      rw [pickList1_fst_map, pickList1_fst_map] at h
      simp only [pick1_fst_arr, List.map_map]
      rw [← List.map_map]
      exact congrArg JSVal.arr h
  | .obj fs, p => by
      cases hsp : splitAtDot p with
      | none =>
          by_cases h : hasKey fs p = true
          · rw [pickFields1_obj_none fs p hsp, if_pos h]
            rw [pickFields1_obj_none _ p hsp]
            simp [hasKey, lookupKey]
          · rw [pickFields1_obj_none fs p hsp, if_neg h]
            rw [pickFields1_obj_none [] p hsp]
            simp [hasKey, lookupKey]
      | some tr =>
          obtain ⟨h0, t0⟩ := tr
          by_cases h : hasKey fs h0 = true
          · rw [pickFields1_obj_some fs p h0 t0 hsp, if_pos h]
            rw [pickFields1_obj_some _ p h0 t0 hsp]
            have hrec := pickFields1_fst_idem ((lookupKey fs h0).getD .undef) t0
            simp [hasKey, lookupKey, hrec]
          · rw [pickFields1_obj_some fs p h0 t0 hsp, if_neg h]
            rw [pickFields1_obj_some [] p h0 t0 hsp]
            simp [hasKey, lookupKey]
  termination_by v p => (p.data.length, sizeOf v)
  decreasing_by
    all_goals first
      | (apply Prod.Lex.right
         simp)
      | (apply Prod.Lex.left
         exact splitAtDot_rest_length _ _ _ (by assumption))

theorem pickList1_fst_idem :
    (xs : List JSVal) → (p : String) →
    (pickList1 ((pickList1 xs p).map Prod.fst) p).map Prod.fst
      = (pickList1 xs p).map Prod.fst
  | [], p => by simp [pickList1]
  | x :: xs, p => by
      have h1 := pickFields1_fst_idem x p
      have h2 := pickList1_fst_idem xs p
      simp [pickList1, h1, h2]
  termination_by xs p => (p.data.length, sizeOf xs)
  decreasing_by
    · apply Prod.Lex.right
      simp
      omega
    · apply Prod.Lex.right
      simp

end

/-- A chain of single-path picks (what repeated `Object.assign` write-backs
apply to one key's value in the aliased phase of the loop). -/
def chainPick (ts : List String) (x : JSVal) : JSVal :=
  ts.foldl (fun w t => (pickFields1 w t).1) x

/-- The tails of the dotted paths of a chain (bare paths act as the identity
on a singleton object and disappear). -/
def subTails (ts : List String) : List String :=
  ts.filterMap (fun t =>
    match splitAtDot t with
    | none => none
    | some (_, t0) => some t0)

/-- Total size of a path list, the recursion measure for chain lemmas. -/
def pathsMeasure (ts : List String) : Nat :=
  (ts.map (fun t => t.data.length + 1)).sum

theorem chainPick_nil (x : JSVal) : chainPick [] x = x := rfl

theorem chainPick_cons (t : String) (ts : List String) (x : JSVal) :
    chainPick (t :: ts) x = chainPick ts ((pickFields1 x t).1) := rfl

theorem chainPick_fixed (ts : List String) (x : JSVal)
    (h : ∀ t, (pickFields1 x t).1 = x) : chainPick ts x = x := by
  induction ts with
  | nil => rfl
  | cons t ts ih => rw [chainPick_cons, h t, ih]

theorem chainPick_arr (ts : List String) :
    ∀ xs : List JSVal, chainPick ts (.arr xs) = .arr (xs.map (chainPick ts)) := by
  induction ts with
  | nil =>
      intro xs
      have hmap : xs.map (chainPick []) = xs := by
        have h0 : chainPick [] = fun x => x := rfl
        rw [h0, List.map_id']
      rw [hmap]
      rfl
  | cons t ts ih =>
      intro xs
      rw [chainPick_cons, pick1_fst_arr, ih, List.map_map]
      rfl

theorem pathsMeasure_subTails_le (ts : List String) :
    pathsMeasure (subTails ts) ≤ pathsMeasure ts := by
  induction ts with
  | nil => simp [subTails, pathsMeasure]
  | cons t ts ih =>
      cases hsp : splitAtDot t with
      | none =>
          simp only [subTails, List.filterMap_cons, hsp, pathsMeasure,
            List.map_cons, List.sum_cons] at *
          omega
      | some tr =>
          obtain ⟨h0, t0⟩ := tr
          have hlen := splitAtDot_rest_length t h0 t0 hsp
          simp only [subTails, List.filterMap_cons, hsp, pathsMeasure,
            List.map_cons, List.sum_cons] at *
          omega

/-- Chains act on a singleton object either by transforming the value under
the key (when every path addresses that key) or by collapsing to the empty
object. -/
theorem chainPick_singleton (ts : List String) :
    ∀ (h : String) (s : JSVal),
    chainPick ts (.obj [(h, s)]) =
      if ∀ t ∈ ts, headOf t = h then .obj [(h, chainPick (subTails ts) s)]
      else .obj [] := by
  induction ts with
  | nil =>
      intro h s
      simp [chainPick, subTails]
  | cons t ts ih =>
      intro h s
      rw [chainPick_cons]
      cases hsp : splitAtDot t with
      | none =>
          by_cases hth : t = h
          · subst hth
            rw [pickFields1_obj_none _ t hsp]
            have hk : hasKey [(t, s)] t = true := by simp [hasKey, lookupKey]
            rw [if_pos hk]
            have hval : (lookupKey [(t, s)] t).getD .undef = s := by
              simp [lookupKey]
            rw [hval, ih t s]
            have hcond : (∀ x ∈ t :: ts, headOf x = t) ↔ (∀ x ∈ ts, headOf x = t) := by
              constructor
              · intro hc x hx
                exact hc x (List.mem_cons_of_mem t hx)
              · intro hc x hx
                rcases List.mem_cons.mp hx with heq | hx'
                · subst heq
                  simp [headOf, hsp]
                · exact hc x hx'
            have hsub : subTails (t :: ts) = subTails ts := by
              simp [subTails, List.filterMap_cons, hsp]
            rw [hsub]
            by_cases hc : ∀ x ∈ ts, headOf x = t
            · rw [if_pos hc, if_pos (hcond.mpr hc)]
            · have hc' : ¬ (∀ x ∈ t :: ts, headOf x = t) := fun hx => hc (hcond.mp hx)
              rw [if_neg hc, if_neg hc']
          · rw [pickFields1_obj_none _ t hsp]
            have hne : ¬ (h = t) := fun he => hth he.symm
            have hk : ¬ (hasKey [(h, s)] t = true) := by
              simp [hasKey, lookupKey, hne]
            rw [if_neg hk]
            rw [chainPick_fixed ts (.obj []) pick1_fst_empty]
            have hcf : ¬ (∀ x ∈ t :: ts, headOf x = h) := by
              intro hc
              exact hth (by simpa [headOf, hsp] using hc t (List.mem_cons_self t ts))
            rw [if_neg hcf]
      | some tr =>
          obtain ⟨h0, t0⟩ := tr
          by_cases hth : h0 = h
          · subst hth
            rw [pickFields1_obj_some _ t h0 t0 hsp]
            have hk : hasKey [(h0, s)] h0 = true := by simp [hasKey, lookupKey]
            rw [if_pos hk]
            have hval : (lookupKey [(h0, s)] h0).getD .undef = s := by
              simp [lookupKey]
            rw [hval, ih h0 ((pickFields1 s t0).1)]
            have hcond : (∀ x ∈ t :: ts, headOf x = h0) ↔ (∀ x ∈ ts, headOf x = h0) := by
              constructor
              · intro hc x hx
                exact hc x (List.mem_cons_of_mem t hx)
              · intro hc x hx
                rcases List.mem_cons.mp hx with heq | hx'
                · subst heq
                  simp [headOf, hsp]
                · exact hc x hx'
            have hsub : subTails (t :: ts) = t0 :: subTails ts := by
              simp [subTails, List.filterMap_cons, hsp]
            rw [hsub]
            by_cases hc : ∀ x ∈ ts, headOf x = h0
            · rw [if_pos hc, if_pos (hcond.mpr hc)]
              rw [chainPick_cons]
            · have hc' : ¬ (∀ x ∈ t :: ts, headOf x = h0) := fun hx => hc (hcond.mp hx)
              rw [if_neg hc, if_neg hc']
          · rw [pickFields1_obj_some _ t h0 t0 hsp]
            have hne : ¬ (h = h0) := fun he => hth he.symm
            have hk : ¬ (hasKey [(h, s)] h0 = true) := by
              simp [hasKey, lookupKey, hne]
            rw [if_neg hk]
            rw [chainPick_fixed ts (.obj []) pick1_fst_empty]
            have hcf : ¬ (∀ x ∈ t :: ts, headOf x = h) := by
              intro hc
              exact hth (by simpa [headOf, hsp] using hc t (List.mem_cons_self t ts))
            rw [if_neg hcf]

theorem pathsMeasure_lt_cons (t : String) (ts' : List String) :
    pathsMeasure (subTails ts') < pathsMeasure (t :: ts') := by
  refine Nat.lt_of_le_of_lt (pathsMeasure_subTails_le ts') ?_
  simp only [pathsMeasure, List.map_cons, List.sum_cons]
  omega

theorem pathsMeasure_lt_cons_tail (t h0 t0 : String) (ts' : List String)
    (hsp : splitAtDot t = some (h0, t0)) :
    pathsMeasure (t0 :: subTails ts') < pathsMeasure (t :: ts') := by
  have h1 := pathsMeasure_subTails_le ts'
  have h2 := splitAtDot_rest_length t h0 t0 hsp
  simp only [pathsMeasure, List.map_cons, List.sum_cons] at *
  omega

mutual

/-- Chains of single-path picks are idempotent. -/
theorem chainPick_idem : (ts : List String) → (x : JSVal) →
    chainPick ts (chainPick ts x) = chainPick ts x
  | ts, .null => by
      rw [chainPick_fixed ts .null pick1_fst_null,
        chainPick_fixed ts .null pick1_fst_null]
  | ts, .undef => by
      rw [chainPick_fixed ts .undef pick1_fst_undef,
        chainPick_fixed ts .undef pick1_fst_undef]
  | ts, .bool b => by
      rw [chainPick_fixed ts (.bool b) (pick1_fst_bool b),
        chainPick_fixed ts (.bool b) (pick1_fst_bool b)]
  | ts, .num q => by
      rw [chainPick_fixed ts (.num q) (pick1_fst_num q),
        chainPick_fixed ts (.num q) (pick1_fst_num q)]
  | ts, .str s => by
      rw [chainPick_fixed ts (.str s) (pick1_fst_str s),
        chainPick_fixed ts (.str s) (pick1_fst_str s)]
  | ts, .arr xs => by
      rw [chainPick_arr, chainPick_arr]
      exact congrArg JSVal.arr (chainPick_idem_list ts xs)
  | [], .obj fs => rfl
  | t :: ts', .obj fs => by
      rw [chainPick_cons t ts' (.obj fs)]
      cases hsp : splitAtDot t with
      | none =>
          by_cases hk : hasKey fs t = true
          · rw [pickFields1_obj_none fs t hsp, if_pos hk]
            rw [chainPick_singleton ts' t ((lookupKey fs t).getD .undef)]
            by_cases hc : ∀ x ∈ ts', headOf x = t
            · rw [if_pos hc]
              rw [chainPick_cons, pickFields1_obj_none _ t hsp]
              have hk2 : hasKey
                  [(t, chainPick (subTails ts') ((lookupKey fs t).getD .undef))] t
                  = true := by simp [hasKey, lookupKey]
              rw [if_pos hk2]
              have hval : (lookupKey
                  [(t, chainPick (subTails ts') ((lookupKey fs t).getD .undef))]
                  t).getD .undef
                  = chainPick (subTails ts') ((lookupKey fs t).getD .undef) := by
                simp [lookupKey]
              rw [hval, chainPick_singleton ts' t _, if_pos hc]
              exact congrArg (fun z => JSVal.obj [(t, z)])
                (chainPick_idem (subTails ts') ((lookupKey fs t).getD .undef))
            · rw [if_neg hc]
              rw [chainPick_cons, pick1_fst_empty,
                chainPick_fixed ts' _ pick1_fst_empty]
          · rw [pickFields1_obj_none fs t hsp, if_neg hk]
            rw [chainPick_fixed ts' _ pick1_fst_empty]
            rw [chainPick_cons, pick1_fst_empty,
              chainPick_fixed ts' _ pick1_fst_empty]
      | some tr =>
          obtain ⟨h0, t0⟩ := tr
          by_cases hk : hasKey fs h0 = true
          · rw [pickFields1_obj_some fs t h0 t0 hsp, if_pos hk]
            rw [chainPick_singleton ts' h0
              ((pickFields1 ((lookupKey fs h0).getD .undef) t0).1)]
            by_cases hc : ∀ x ∈ ts', headOf x = h0
            · rw [if_pos hc]
              rw [chainPick_cons, pickFields1_obj_some _ t h0 t0 hsp]
              have hk2 : hasKey
                  [(h0, chainPick (subTails ts')
                    ((pickFields1 ((lookupKey fs h0).getD .undef) t0).1))] h0
                  = true := by simp [hasKey, lookupKey]
              rw [if_pos hk2]
              have hval : (lookupKey
                  [(h0, chainPick (subTails ts')
                    ((pickFields1 ((lookupKey fs h0).getD .undef) t0).1))]
                  h0).getD .undef
                  = chainPick (subTails ts')
                    ((pickFields1 ((lookupKey fs h0).getD .undef) t0).1) := by
                simp [lookupKey]
              rw [hval, chainPick_singleton ts' h0 _, if_pos hc]
              exact congrArg (fun z => JSVal.obj [(h0, z)])
                (chainPick_idem (t0 :: subTails ts') ((lookupKey fs h0).getD .undef))
            · rw [if_neg hc]
              rw [chainPick_cons, pick1_fst_empty,
                chainPick_fixed ts' _ pick1_fst_empty]
          · rw [pickFields1_obj_some fs t h0 t0 hsp, if_neg hk]
            rw [chainPick_fixed ts' _ pick1_fst_empty]
            rw [chainPick_cons, pick1_fst_empty,
              chainPick_fixed ts' _ pick1_fst_empty]
  termination_by ts x => (pathsMeasure ts, sizeOf x)
  decreasing_by
    all_goals first
      | (apply Prod.Lex.right
         simp)
      | (apply Prod.Lex.left
         exact pathsMeasure_lt_cons _ _)
      | (apply Prod.Lex.left
         exact pathsMeasure_lt_cons_tail _ _ _ _ (by assumption))

theorem chainPick_idem_list : (ts : List String) → (xs : List JSVal) →
    (xs.map (chainPick ts)).map (chainPick ts) = xs.map (chainPick ts)
  | _, [] => by simp
  | ts, x :: xs => by
      have h1 := chainPick_idem ts x
      have h2 := chainPick_idem_list ts xs
      simp only [List.map_cons, h1, h2]
  termination_by ts xs => (pathsMeasure ts, sizeOf xs)
  decreasing_by
    · apply Prod.Lex.right
      simp
      omega
    · apply Prod.Lex.right
      simp

end

/-! ### Per-key view of the loop -/

/-- The loop state projected to a single key: the record's entry, the
result's entry, and whether the two alias. -/
structure KSt where
  rv : Option JSVal
  rs : Option JSVal
  al : Bool
deriving DecidableEq

/-- The loop operations that concern one key: a bare field equal to the key,
or a dotted field whose top key is the key (carrying the rest path). -/
inductive KOp : Type where
  | kbare : KOp
  | kdot : String → KOp
deriving DecidableEq

/-- The fields of a path list that address a given key, as per-key ops. -/
def opsOf (k : String) (fields : List String) : List KOp :=
  fields.filterMap (fun f =>
    match splitAtDot f with
    | none => if f = k then some .kbare else none
    | some (t, r) => if t = k then some (.kdot r) else none)

/-- The loop body's effect on one key's state (mirror of the branches of
`pickLoop` for a field addressing the key). -/
def opStep (s : KSt) (o : KOp) : KSt :=
  match s.rv with
  | none => s
  | some w =>
      match o with
      | .kbare => ⟨some w, some w, true⟩
      | .kdot r =>
          match s.rs with
          | some (.obj es) =>
              ⟨some (if s.al then objAssign (.obj es) (pickFields1 w r).1
                     else (pickFields1 w r).2),
                some (objAssign (.obj es) (pickFields1 w r).1), s.al⟩
          | _ => ⟨some (pickFields1 w r).2, some (pickFields1 w r).1, false⟩

def opsRun (ops : List KOp) (s : KSt) : KSt := ops.foldl opStep s

theorem opsRun_nil (s : KSt) : opsRun [] s = s := rfl

theorem opsRun_cons (o : KOp) (ops : List KOp) (s : KSt) :
    opsRun (o :: ops) s = opsRun ops (opStep s o) := rfl

theorem mem_insertStr_iff {k f : String} {l : List String} :
    k ∈ insertStr f l ↔ (k = f ∨ k ∈ l) := by
  unfold insertStr
  split
  · next hm =>
      constructor
      · exact Or.inr
      · rintro (rfl | hk)
        · exact hm
        · exact hk
  · exact List.mem_cons

theorem nodup_insertStr {f : String} {l : List String} (h : l.Nodup) :
    (insertStr f l).Nodup := by
  unfold insertStr
  split
  · exact h
  · next hm => exact List.nodup_cons.mpr ⟨hm, h⟩

/-! Branch-by-branch unfolding lemmas for one iteration of the loop. -/

theorem pickLoop_bare_hit (f : String) (fs : List String)
    (record result : List (String × JSVal)) (aliased : List String)
    (hsp : splitAtDot f = none) (hk : hasKey record f = true) :
    pickLoop (f :: fs) record result aliased =
      pickLoop fs record
        (setKey result f ((lookupKey record f).getD .undef))
        (insertStr f aliased) := by
  simp only [pickLoop, hsp]
  rw [if_pos hk]

theorem pickLoop_bare_miss (f : String) (fs : List String)
    (record result : List (String × JSVal)) (aliased : List String)
    (hsp : splitAtDot f = none) (hk : ¬ (hasKey record f = true)) :
    pickLoop (f :: fs) record result aliased =
      pickLoop fs record result aliased := by
  simp only [pickLoop, hsp]
  rw [if_neg hk]

theorem pickLoop_dot_miss (f : String) (fs : List String)
    (record result : List (String × JSVal)) (aliased : List String)
    (t r : String) (hsp : splitAtDot f = some (t, r))
    (hk : ¬ (hasKey record t = true)) :
    pickLoop (f :: fs) record result aliased =
      pickLoop fs record result aliased := by
  simp only [pickLoop, hsp]
  rw [if_neg hk]

theorem pickLoop_dot_obj (f : String) (fs : List String)
    (record result : List (String × JSVal)) (aliased : List String)
    (t r : String) (es : List (String × JSVal))
    (hsp : splitAtDot f = some (t, r)) (hk : hasKey record t = true)
    (hres : lookupKey result t = some (.obj es)) :
    pickLoop (f :: fs) record result aliased =
      pickLoop fs
        (if t ∈ aliased then
          setKey (setKey record t
              (pickFields1 ((lookupKey record t).getD .undef) r).2) t
            (objAssign (.obj es)
              (pickFields1 ((lookupKey record t).getD .undef) r).1)
        else
          setKey record t (pickFields1 ((lookupKey record t).getD .undef) r).2)
        (setKey result t
          (objAssign (.obj es)
            (pickFields1 ((lookupKey record t).getD .undef) r).1))
        aliased := by
  simp only [pickLoop, hsp]
  rw [if_pos hk, hres]

theorem pickLoop_dot_else (f : String) (fs : List String)
    (record result : List (String × JSVal)) (aliased : List String)
    (t r : String) (hsp : splitAtDot f = some (t, r))
    (hk : hasKey record t = true)
    (hne : ∀ es, lookupKey result t ≠ some (.obj es)) :
    pickLoop (f :: fs) record result aliased =
      pickLoop fs
        (setKey record t (pickFields1 ((lookupKey record t).getD .undef) r).2)
        (setKey result t (pickFields1 ((lookupKey record t).getD .undef) r).1)
        (aliased.erase t) := by
  simp only [pickLoop, hsp]
  rw [if_pos hk]

/-- One key's view of a full loop state. -/
def projK (k : String)
    (st : List (String × JSVal) × List (String × JSVal) × List String) : KSt :=
  ⟨lookupKey st.1 k, lookupKey st.2.1 k, decide (k ∈ st.2.2)⟩

theorem opStep_none (o : KOp) (rs : Option JSVal) (al : Bool) :
    opStep ⟨none, rs, al⟩ o = ⟨none, rs, al⟩ := rfl

theorem opsRun_none (ops : List KOp) (rs : Option JSVal) (al : Bool) :
    opsRun ops ⟨none, rs, al⟩ = ⟨none, rs, al⟩ := by
  induction ops with
  | nil => rfl
  | cons o ops ih => rw [opsRun_cons, opStep_none, ih]

/-- Projection: the loop, observed at any one key, is the per-key machine run
on that key's ops.  (The `aliased` list stays duplicate-free throughout the
loop, which the erase step needs.) -/
theorem pickLoop_projK (k : String) :
    ∀ (fields : List String) (record result : List (String × JSVal))
      (aliased : List String), aliased.Nodup →
    projK k (pickLoop fields record result aliased)
      = opsRun (opsOf k fields)
          ⟨lookupKey record k, lookupKey result k, decide (k ∈ aliased)⟩ := by
  intro fields
  induction fields with
  | nil => intro record result aliased _; rfl
  | cons f fs ih =>
      intro record result aliased hnd
      cases hsp : splitAtDot f with
      | none =>
          by_cases hfk : f = k
          · subst hfk
            have hops : opsOf f (f :: fs) = .kbare :: opsOf f fs := by
              simp [opsOf, List.filterMap_cons, hsp]
            rw [hops, opsRun_cons]
            by_cases hk : hasKey record f = true
            · obtain ⟨w, hw⟩ : ∃ w, lookupKey record f = some w := by
                cases hlk : lookupKey record f with
                | none => simp [hasKey, hlk] at hk
                | some w => exact ⟨w, rfl⟩
              rw [pickLoop_bare_hit f fs record result aliased hsp hk]
              rw [ih record _ _ (nodup_insertStr hnd)]
              have hmem : f ∈ insertStr f aliased := mem_insertStr_iff.mpr (Or.inl rfl)
              simp [opStep, hw, lookupKey_setKey, hmem]
            · have hlk : lookupKey record f = none := by
                cases h : lookupKey record f with
                | none => rfl
                | some w => rw [hasKey, h] at hk; simp at hk
              rw [pickLoop_bare_miss f fs record result aliased hsp hk]
              rw [ih record result aliased hnd, hlk, opStep_none]
          · have hops : opsOf k (f :: fs) = opsOf k fs := by
              simp [opsOf, List.filterMap_cons, hsp, hfk]
            rw [hops]
            by_cases hk : hasKey record f = true
            · rw [pickLoop_bare_hit f fs record result aliased hsp hk]
              rw [ih record _ _ (nodup_insertStr hnd)]
              have hkf : ¬ (k = f) := fun h => hfk h.symm
              have hmem : (k ∈ insertStr f aliased) = (k ∈ aliased) := by
                simp [mem_insertStr_iff, hkf]
              simp [lookupKey_setKey, hfk, hmem]
            · rw [pickLoop_bare_miss f fs record result aliased hsp hk]
              rw [ih record result aliased hnd]
      | some tr =>
          obtain ⟨t, r⟩ := tr
          by_cases htk : t = k
          · subst htk
            have hops : opsOf t (f :: fs) = .kdot r :: opsOf t fs := by
              simp [opsOf, List.filterMap_cons, hsp]
            rw [hops, opsRun_cons]
            by_cases hk : hasKey record t = true
            · obtain ⟨w, hw⟩ : ∃ w, lookupKey record t = some w := by
                cases hlk : lookupKey record t with
                | none => simp [hasKey, hlk] at hk
                | some w => exact ⟨w, rfl⟩
              by_cases hobj : ∀ es, lookupKey result t ≠ some (.obj es)
              · rw [pickLoop_dot_else f fs record result aliased t r hsp hk hobj]
                rw [ih _ _ _ (hnd.erase t)]
                have hner : t ∉ aliased.erase t :=
                  fun hc => ((List.Nodup.mem_erase_iff hnd).mp hc).1 rfl
                cases hres : lookupKey result t with
                | none => simp [opStep, hw, lookupKey_setKey, hner]
                | some rv =>
                    cases rv with
                    | obj es => exact absurd hres (hobj es)
                    | null => simp [opStep, hw, lookupKey_setKey, hner]
                    | undef => simp [opStep, hw, lookupKey_setKey, hner]
                    | bool b => simp [opStep, hw, lookupKey_setKey, hner]
                    | num q => simp [opStep, hw, lookupKey_setKey, hner]
                    | str s => simp [opStep, hw, lookupKey_setKey, hner]
                    | arr xs => simp [opStep, hw, lookupKey_setKey, hner]
              · push_neg at hobj
                obtain ⟨es, hres⟩ := hobj
                rw [pickLoop_dot_obj f fs record result aliased t r es hsp hk hres]
                by_cases hmem : t ∈ aliased
                · rw [if_pos hmem]
                  rw [ih _ _ _ hnd]
                  simp [opStep, hw, hres, lookupKey_setKey, hmem]
                · rw [if_neg hmem]
                  rw [ih _ _ _ hnd]
                  simp [opStep, hw, hres, lookupKey_setKey, hmem]
            · have hlk : lookupKey record t = none := by
                cases h : lookupKey record t with
                | none => rfl
                | some w => rw [hasKey, h] at hk; simp at hk
              rw [pickLoop_dot_miss f fs record result aliased t r hsp hk]
              rw [ih record result aliased hnd, hlk, opStep_none]
          · have hops : opsOf k (f :: fs) = opsOf k fs := by
              simp [opsOf, List.filterMap_cons, hsp, htk]
            rw [hops]
            have hkt : ¬ (k = t) := fun h => htk h.symm
            by_cases hk : hasKey record t = true
            · by_cases hobj : ∀ es, lookupKey result t ≠ some (.obj es)
              · rw [pickLoop_dot_else f fs record result aliased t r hsp hk hobj]
                rw [ih _ _ _ (hnd.erase t)]
                have hmem : (k ∈ aliased.erase t) = (k ∈ aliased) := by
                  simp [List.mem_erase_of_ne hkt]
                simp [lookupKey_setKey, htk, hmem]
              · push_neg at hobj
                obtain ⟨es, hres⟩ := hobj
                rw [pickLoop_dot_obj f fs record result aliased t r es hsp hk hres]
                by_cases hmem : t ∈ aliased
                · rw [if_pos hmem]
                  rw [ih _ _ _ hnd]
                  simp [lookupKey_setKey, htk]
                · rw [if_neg hmem]
                  rw [ih _ _ _ hnd]
                  simp [lookupKey_setKey, htk]
            · rw [pickLoop_dot_miss f fs record result aliased t r hsp hk]
              rw [ih record result aliased hnd]

/-! ### Key sequences through the loop -/

/-- Append a key if it is not present yet (the effect of `setKey` on the key
sequence). -/
def insEnd (ks : List String) (h : String) : List String :=
  if h ∈ ks then ks else ks ++ [h]

theorem keys_setKey_insEnd {α : Type} (l : List (String × α)) (k : String) (v : α) :
    (setKey l k v).map Prod.fst = insEnd (l.map Prod.fst) k := by
  rw [keys_setKey, insEnd]
  by_cases hm : k ∈ l.map Prod.fst
  · rw [if_pos ((lookupKey_isSome_iff l k).mpr hm), if_pos hm]
  · rw [if_neg (fun hc => hm ((lookupKey_isSome_iff l k).mp hc)), if_neg hm]

theorem mem_insEnd {h x : String} {ks : List String} :
    h ∈ insEnd ks x ↔ (h = x ∨ h ∈ ks) := by
  unfold insEnd
  split
  · next hm =>
      constructor
      · exact Or.inr
      · rintro (rfl | hk)
        · exact hm
        · exact hk
  · simp [or_comm]

theorem nodup_insEnd {x : String} {ks : List String} (h : ks.Nodup) :
    (insEnd ks x).Nodup := by
  unfold insEnd
  split
  · exact h
  · next hm => simp [List.nodup_append, h, hm]

theorem hasKey_eq_of_keys_eq {α β : Type} (r1 : List (String × α))
    (r2 : List (String × β)) (h : r1.map Prod.fst = r2.map Prod.fst)
    (k : String) : hasKey r1 k = hasKey r2 k := by
  by_cases hm : k ∈ r1.map Prod.fst
  · have h1 := (lookupKey_isSome_iff r1 k).mpr hm
    have h2 := (lookupKey_isSome_iff r2 k).mpr (h ▸ hm)
    unfold hasKey
    rw [h1, h2]
  · have h1 : lookupKey r1 k = none := (lookupKey_eq_none_iff r1 k).mpr hm
    have h2 : lookupKey r2 k = none :=
      (lookupKey_eq_none_iff r2 k).mpr (fun hc => hm (h ▸ hc))
    unfold hasKey
    rw [h1, h2]
    rfl

/-- The record's key sequence is invariant through the loop: the loop only
writes record keys that are already present. -/
theorem pickLoop_record_keys (fields : List String) :
    ∀ (record result : List (String × JSVal)) (aliased : List String),
    (pickLoop fields record result aliased).1.map Prod.fst
      = record.map Prod.fst := by
  induction fields with
  | nil => intro record result aliased; rfl
  | cons f fs ih =>
      intro record result aliased
      cases hsp : splitAtDot f with
      | none =>
          by_cases hk : hasKey record f = true
          · rw [pickLoop_bare_hit f fs record result aliased hsp hk, ih]
          · rw [pickLoop_bare_miss f fs record result aliased hsp hk, ih]
      | some tr =>
          obtain ⟨t, r⟩ := tr
          by_cases hk : hasKey record t = true
          · have hsome : (lookupKey record t).isSome = true := hk
            have hkeys : ∀ v : JSVal,
                (setKey record t v).map Prod.fst = record.map Prod.fst := by
              intro v
              rw [keys_setKey, if_pos hsome]
            by_cases hobj : ∀ es, lookupKey result t ≠ some (.obj es)
            · rw [pickLoop_dot_else f fs record result aliased t r hsp hk hobj,
                ih, hkeys]
            · push_neg at hobj
              obtain ⟨es, hres⟩ := hobj
              rw [pickLoop_dot_obj f fs record result aliased t r es hsp hk hres]
              by_cases hmem : t ∈ aliased
              · rw [if_pos hmem, ih, keys_setKey,
                  if_pos ((lookupKey_isSome_iff _ t).mpr ?_), hkeys]
                rw [hkeys]
                exact (lookupKey_isSome_iff record t).mp hsome
              · rw [if_neg hmem, ih, hkeys]
          · rw [pickLoop_dot_miss f fs record result aliased t r hsp hk, ih]

/-- The result's key sequence as a fold over the fields: each field appends
its head key when the record has it. -/
def resKeys (record : List (String × JSVal)) (fields : List String)
    (ks : List String) : List String :=
  fields.foldl
    (fun ks f => if hasKey record (headOf f) = true then insEnd ks (headOf f) else ks)
    ks

theorem resKeys_nil (record : List (String × JSVal)) (ks : List String) :
    resKeys record [] ks = ks := rfl

theorem resKeys_cons (record : List (String × JSVal)) (f : String)
    (fs : List String) (ks : List String) :
    resKeys record (f :: fs) ks =
      resKeys record fs
        (if hasKey record (headOf f) = true then insEnd ks (headOf f) else ks) := rfl

theorem resKeys_congr (fields : List String) :
    ∀ (r1 r2 : List (String × JSVal)),
    (∀ f ∈ fields, hasKey r1 (headOf f) = hasKey r2 (headOf f)) →
    ∀ ks, resKeys r1 fields ks = resKeys r2 fields ks := by
  induction fields with
  | nil => intro r1 r2 _ ks; rfl
  | cons f fs ih =>
      intro r1 r2 h ks
      rw [resKeys_cons, resKeys_cons, h f (List.mem_cons_self f fs)]
      exact ih r1 r2 (fun g hg => h g (List.mem_cons_of_mem f hg)) _

theorem resKeys_nodup (fields : List String) :
    ∀ (record : List (String × JSVal)) (ks : List String),
    ks.Nodup → (resKeys record fields ks).Nodup := by
  induction fields with
  | nil => intro record ks h; exact h
  | cons f fs ih =>
      intro record ks h
      rw [resKeys_cons]
      split
      · exact ih record _ (nodup_insEnd h)
      · exact ih record ks h

theorem mem_resKeys (fields : List String) :
    ∀ (record : List (String × JSVal)) (ks : List String) (h : String),
    h ∈ resKeys record fields ks
      ↔ (h ∈ ks ∨ ∃ f ∈ fields, headOf f = h ∧ hasKey record h = true) := by
  induction fields with
  | nil =>
      intro record ks h
      simp [resKeys_nil]
  | cons f fs ih =>
      intro record ks h
      rw [resKeys_cons]
      by_cases hk : hasKey record (headOf f) = true
      · rw [if_pos hk, ih]
        constructor
        · rintro (hm | ⟨g, hg, hgh, hgk⟩)
          · rcases mem_insEnd.mp hm with heq | hm'
            · exact Or.inr ⟨f, List.mem_cons_self f fs, heq.symm, heq ▸ hk⟩
            · exact Or.inl hm'
          · exact Or.inr ⟨g, List.mem_cons_of_mem f hg, hgh, hgk⟩
        · rintro (hm | ⟨g, hg, hgh, hgk⟩)
          · exact Or.inl (mem_insEnd.mpr (Or.inr hm))
          · rcases List.mem_cons.mp hg with heq | hg'
            · subst heq
              exact Or.inl (mem_insEnd.mpr (Or.inl hgh.symm))
            · exact Or.inr ⟨g, hg', hgh, hgk⟩
      · rw [if_neg hk, ih]
        constructor
        · rintro (hm | ⟨g, hg, hgh, hgk⟩)
          · exact Or.inl hm
          · exact Or.inr ⟨g, List.mem_cons_of_mem f hg, hgh, hgk⟩
        · rintro (hm | ⟨g, hg, hgh, hgk⟩)
          · exact Or.inl hm
          · rcases List.mem_cons.mp hg with heq | hg'
            · subst heq
              exact absurd (hgh ▸ hgk) hk
            · exact Or.inr ⟨g, hg', hgh, hgk⟩

/-- The result's key sequence produced by the loop. -/
theorem pickLoop_result_keys (fields : List String) :
    ∀ (record result : List (String × JSVal)) (aliased : List String),
    (pickLoop fields record result aliased).2.1.map Prod.fst
      = resKeys record fields (result.map Prod.fst) := by
  induction fields with
  | nil => intro record result aliased; rfl
  | cons f fs ih =>
      intro record result aliased
      cases hsp : splitAtDot f with
      | none =>
          have hhead : headOf f = f := by rw [headOf, hsp]
          by_cases hk : hasKey record f = true
          · rw [pickLoop_bare_hit f fs record result aliased hsp hk, ih,
              resKeys_cons, hhead, if_pos hk, keys_setKey_insEnd]
          · rw [pickLoop_bare_miss f fs record result aliased hsp hk, ih,
              resKeys_cons, hhead, if_neg hk]
      | some tr =>
          obtain ⟨t, r⟩ := tr
          have hhead : headOf f = t := by rw [headOf, hsp]
          by_cases hk : hasKey record t = true
          · have hsome : (lookupKey record t).isSome = true := hk
            have hkeys : ∀ v : JSVal,
                (setKey record t v).map Prod.fst = record.map Prod.fst := by
              intro v
              rw [keys_setKey, if_pos hsome]
            by_cases hobj : ∀ es, lookupKey result t ≠ some (.obj es)
            · rw [pickLoop_dot_else f fs record result aliased t r hsp hk hobj, ih,
                resKeys_cons, hhead, if_pos hk, keys_setKey_insEnd]
              exact resKeys_congr fs _ record
                (fun g _ => hasKey_eq_of_keys_eq _ _ (hkeys _) (headOf g)) _
            · push_neg at hobj
              obtain ⟨es, hres⟩ := hobj
              rw [pickLoop_dot_obj f fs record result aliased t r es hsp hk hres]
              have hres2 : (setKey result t
                  (objAssign (.obj es)
                    (pickFields1 ((lookupKey record t).getD .undef) r).1)).map Prod.fst
                  = result.map Prod.fst := by
                rw [keys_setKey, if_pos (by rw [hres]; rfl)]
              by_cases hmem : t ∈ aliased
              · rw [if_pos hmem, ih, hres2, resKeys_cons, hhead, if_pos hk]
                have hins : insEnd (result.map Prod.fst) t = result.map Prod.fst := by
                  rw [insEnd, if_pos]
                  exact (lookupKey_isSome_iff result t).mp (by rw [hres]; rfl)
                rw [hins]
                refine resKeys_congr fs _ record (fun g _ => ?_) _
                refine hasKey_eq_of_keys_eq _ _ ?_ (headOf g)
                rw [keys_setKey, if_pos, hkeys]
                rw [lookupKey_setKey]
                simp
              · rw [if_neg hmem, ih, hres2, resKeys_cons, hhead, if_pos hk]
                have hins : insEnd (result.map Prod.fst) t = result.map Prod.fst := by
                  rw [insEnd, if_pos]
                  exact (lookupKey_isSome_iff result t).mp (by rw [hres]; rfl)
                rw [hins]
                exact resKeys_congr fs _ record
                  (fun g _ => hasKey_eq_of_keys_eq _ _ (hkeys _) (headOf g)) _
          · rw [pickLoop_dot_miss f fs record result aliased t r hsp hk, ih,
              resKeys_cons, hhead, if_neg hk]

/-! ### Replaying the per-key machine: primitive and array record values -/

theorem opsRun_prim_aux (u : JSVal) (hfix : ∀ t, pickFields1 u t = (u, u))
    (hno : ∀ es, u ≠ JSVal.obj es) :
    ∀ (ops : List KOp) (b : Bool), ∃ b',
    opsRun ops ⟨some u, some u, b⟩ = ⟨some u, some u, b'⟩ := by
  intro ops
  induction ops with
  | nil => intro b; exact ⟨b, rfl⟩
  | cons o ops ih =>
      intro b
      rw [opsRun_cons]
      cases o with
      | kbare =>
          have hstep : opStep ⟨some u, some u, b⟩ .kbare = ⟨some u, some u, true⟩ := rfl
          rw [hstep]
          exact ih true
      | kdot r =>
          have hstep : opStep ⟨some u, some u, b⟩ (.kdot r)
              = ⟨some u, some u, false⟩ := by
            cases u with
            | obj es => exact absurd rfl (hno es)
            | null => simp [opStep, hfix]
            | undef => simp [opStep, hfix]
            | bool c => simp [opStep, hfix]
            | num q => simp [opStep, hfix]
            | str s => simp [opStep, hfix]
            | arr xs => simp [opStep, hfix]
          rw [hstep]
          exact ih false

theorem opsRun_prim_start (u : JSVal) (hfix : ∀ t, pickFields1 u t = (u, u))
    (hno : ∀ es, u ≠ JSVal.obj es) :
    ∀ (ops : List KOp), ops ≠ [] → ∃ b',
    opsRun ops ⟨some u, none, false⟩ = ⟨some u, some u, b'⟩ := by
  intro ops hne
  cases ops with
  | nil => exact absurd rfl hne
  | cons o ops =>
      rw [opsRun_cons]
      cases o with
      | kbare =>
          have hstep : opStep ⟨some u, none, false⟩ .kbare = ⟨some u, some u, true⟩ := rfl
          rw [hstep]
          exact opsRun_prim_aux u hfix hno ops true
      | kdot r =>
          have hstep : opStep ⟨some u, none, false⟩ (.kdot r)
              = ⟨some u, some u, false⟩ := by
            simp [opStep, hfix]
          rw [hstep]
          exact opsRun_prim_aux u hfix hno ops false

/-- The per-key machine on an array record value: the record entry never
changes, and the result entry is determined by the last op alone. -/
theorem opsRun_arr (xs : List JSVal) :
    ∀ (ops : List KOp) (rs0 : Option JSVal) (al0 : Bool),
    (rs0 = none ∨ ∃ ys, rs0 = some (.arr ys)) →
    opsRun ops ⟨some (.arr xs), rs0, al0⟩ =
      match ops.getLast? with
      | none => ⟨some (.arr xs), rs0, al0⟩
      | some .kbare => ⟨some (.arr xs), some (.arr xs), true⟩
      | some (.kdot r) =>
          ⟨some (.arr xs), some ((pickFields1 (.arr xs) r).1), false⟩ := by
  intro ops
  induction ops with
  | nil => intro rs0 al0 _; rfl
  | cons o ops ih =>
      intro rs0 al0 hv
      rw [opsRun_cons]
      have hstep : ∃ rs1 al1,
          opStep ⟨some (.arr xs), rs0, al0⟩ o = ⟨some (.arr xs), rs1, al1⟩
          ∧ (rs1 = none ∨ ∃ ys, rs1 = some (.arr ys))
          ∧ (⟨some (.arr xs), rs1, al1⟩ : KSt) =
              (match o with
                | .kbare => ⟨some (.arr xs), some (.arr xs), true⟩
                | .kdot r => ⟨some (.arr xs), some ((pickFields1 (.arr xs) r).1), false⟩) := by
        cases o with
        | kbare =>
            exact ⟨some (.arr xs), true, rfl, Or.inr ⟨xs, rfl⟩, rfl⟩
        | kdot r =>
            refine ⟨some ((pickFields1 (.arr xs) r).1), false, ?_,
              Or.inr ⟨xs.map (fun x => (pickFields1 x r).1), by rw [pick1_fst_arr]⟩, rfl⟩
            rcases hv with h0 | ⟨ys, h0⟩ <;> subst h0 <;>
              simp [opStep, pickFields1_snd]
      obtain ⟨rs1, al1, hs, hv1, hform⟩ := hstep
      rw [hs]
      cases ops with
      | nil =>
          rw [opsRun_nil]
          cases o with
          | kbare => exact hform
          | kdot r => exact hform
      | cons o2 rest =>
          rw [List.getLast?_cons_cons, ih rs1 al1 hv1]
          obtain ⟨l, hl⟩ : ∃ l, (o2 :: rest).getLast? = some l := by
            cases h : (o2 :: rest).getLast? with
            | none => simp at h
            | some l => exact ⟨l, rfl⟩
          rw [hl]
          cases l <;> rfl

/-! ### Replaying the per-key machine: object record values

In the aliased phase the loop applies, per key, a sequence of in-place
updates `es := setKey es h (pickFields1 es[h] t).1`; we set these up as a
standalone rewrite system (`innerStepEx`, with an excluded-key set to make
the induction go through) and prove it idempotent. -/

theorem objAssign_entry (acc : List (String × JSVal))
    (e : Option (String × JSVal)) :
    objAssign (.obj acc) (.obj e.toList)
      = .obj (match e with
          | none => acc
          | some (h, w) => setKey acc h w) := by
  cases e with
  | none => rfl
  | some p =>
      obtain ⟨h, w⟩ := p
      rfl

/-- One aliased-phase update on an object's entry list, ignoring paths whose
head key lies in `ex`. -/
def innerStepEx (ex : List String) (es : List (String × JSVal)) (r : String) :
    List (String × JSVal) :=
  match splitAtDot r with
  | none => es
  | some (h, t) =>
      if h ∈ ex then es
      else
        match lookupKey es h with
        | none => es
        | some w => setKey es h ((pickFields1 w t).1)

def innerRunEx (ex : List String) (es : List (String × JSVal))
    (rs : List String) : List (String × JSVal) :=
  rs.foldl (innerStepEx ex) es

theorem innerRunEx_cons (ex : List String) (es : List (String × JSVal))
    (r : String) (rs : List String) :
    innerRunEx ex es (r :: rs) = innerRunEx ex (innerStepEx ex es r) rs := rfl

theorem innerStepEx_nil (ex : List String) (r : String) :
    innerStepEx ex [] r = [] := by
  unfold innerStepEx
  cases hsp : splitAtDot r with
  | none => rfl
  | some ht =>
      obtain ⟨h, t⟩ := ht
      by_cases hm : h ∈ ex <;> simp [hm, lookupKey]

theorem innerRunEx_nil_es (ex : List String) (rs : List String) :
    innerRunEx ex [] rs = [] := by
  induction rs with
  | nil => rfl
  | cons r rs ih => rw [innerRunEx_cons, innerStepEx_nil, ih]

/-- The rest-paths of an op list that address one inner key. -/
def innerTails (k : String) (rs : List String) : List String :=
  rs.filterMap (fun r =>
    match splitAtDot r with
    | none => none
    | some (h, t) => if h = k then some t else none)

theorem innerRunEx_cons_entry (k : String) (ex : List String) :
    ∀ (rs : List String) (v : JSVal) (es : List (String × JSVal)),
    innerRunEx ex ((k, v) :: es) rs =
      (k, if k ∈ ex then v else chainPick (innerTails k rs) v)
        :: innerRunEx (k :: ex) es rs := by
  intro rs
  induction rs with
  | nil =>
      intro v es
      simp [innerRunEx, innerTails, chainPick_nil]
  | cons r rs ih =>
      intro v es
      rw [innerRunEx_cons]
      cases hsp : splitAtDot r with
      | none =>
          have hs1 : innerStepEx ex ((k, v) :: es) r = (k, v) :: es := by
            simp only [innerStepEx, hsp]
          have hs2 : innerStepEx (k :: ex) es r = es := by
            simp only [innerStepEx, hsp]
          have ht : innerTails k (r :: rs) = innerTails k rs := by
            simp [innerTails, List.filterMap_cons, hsp]
          rw [hs1, ih, innerRunEx_cons, hs2, ht]
      | some ht0 =>
          obtain ⟨h, t⟩ := ht0
          by_cases hhex : h ∈ ex
          · have hs1 : innerStepEx ex ((k, v) :: es) r = (k, v) :: es := by
              simp only [innerStepEx, hsp]
              rw [if_pos hhex]
            have hs2 : innerStepEx (k :: ex) es r = es := by
              simp only [innerStepEx, hsp]
              rw [if_pos (List.mem_cons_of_mem k hhex)]
            rw [hs1, ih, innerRunEx_cons, hs2]
            by_cases hhk : h = k
            · have hkex : k ∈ ex := hhk ▸ hhex
              rw [if_pos hkex, if_pos hkex]
            · have ht : innerTails k (r :: rs) = innerTails k rs := by
                simp [innerTails, List.filterMap_cons, hsp, hhk]
              rw [ht]
          · by_cases hhk : h = k
            · subst hhk
              have hs1 : innerStepEx ex ((h, v) :: es) r
                  = (h, (pickFields1 v t).1) :: es := by
                simp only [innerStepEx, hsp]
                rw [if_neg hhex]
                have hlk : lookupKey ((h, v) :: es) h = some v := by
                  simp [lookupKey]
                rw [hlk]
                simp [setKey]
              have hs2 : innerStepEx (h :: ex) es r = es := by
                simp only [innerStepEx, hsp]
                rw [if_pos (List.mem_cons_self h ex)]
              have ht : innerTails h (r :: rs) = t :: innerTails h rs := by
                simp [innerTails, List.filterMap_cons, hsp]
              rw [hs1, ih, innerRunEx_cons, hs2, ht, if_neg hhex, if_neg hhex,
                chainPick_cons]
            · have hne2 : ¬ (k = h) := fun hc => hhk hc.symm
              have hnkex : ¬ (h ∈ k :: ex) := by
                intro hc
                rcases List.mem_cons.mp hc with heq | hm
                · exact hhk heq
                · exact hhex hm
              have ht : innerTails k (r :: rs) = innerTails k rs := by
                simp [innerTails, List.filterMap_cons, hsp, hhk]
              have hlk0 : lookupKey ((k, v) :: es) h = lookupKey es h := by
                simp [lookupKey, hne2]
              cases hlk : lookupKey es h with
              | none =>
                  have hs1 : innerStepEx ex ((k, v) :: es) r = (k, v) :: es := by
                    simp only [innerStepEx, hsp]
                    rw [if_neg hhex, hlk0, hlk]
                  have hs2 : innerStepEx (k :: ex) es r = es := by
                    simp only [innerStepEx, hsp]
                    rw [if_neg hnkex, hlk]
                  rw [hs1, ih, innerRunEx_cons, hs2, ht]
              | some w =>
                  have hs1 : innerStepEx ex ((k, v) :: es) r
                      = (k, v) :: setKey es h ((pickFields1 w t).1) := by
                    simp only [innerStepEx, hsp]
                    rw [if_neg hhex, hlk0, hlk]
                    simp [setKey, hne2]
                  have hs2 : innerStepEx (k :: ex) es r
                      = setKey es h ((pickFields1 w t).1) := by
                    simp only [innerStepEx, hsp]
                    rw [if_neg hnkex, hlk]
                  rw [hs1, ih, innerRunEx_cons, hs2, ht]

/-- The aliased-phase rewrite system is idempotent: re-running every update
on its own output changes nothing (per entry this is `chainPick_idem`). -/
theorem innerRunEx_idem (rs : List String) :
    ∀ (es : List (String × JSVal)) (ex : List String),
    innerRunEx ex (innerRunEx ex es rs) rs = innerRunEx ex es rs := by
  intro es
  induction es with
  | nil =>
      intro ex
      rw [innerRunEx_nil_es, innerRunEx_nil_es]
  | cons kv es ih =>
      intro ex
      obtain ⟨k, v⟩ := kv
      rw [innerRunEx_cons_entry k ex rs v es,
        innerRunEx_cons_entry k ex rs _ _, ih (k :: ex)]
      by_cases hm : k ∈ ex
      · rw [if_pos hm, if_pos hm]
      · rw [if_neg hm, if_neg hm, chainPick_idem]

/-- The `Object.assign` write-back of the aliased phase is one inner
update. -/
theorem objAssign_pick_step (es : List (String × JSVal)) (r : String) :
    objAssign (.obj es) (pickFields1 (.obj es) r).1
      = .obj (innerStepEx [] es r) := by
  rw [pick1_obj_fst, objAssign_entry]
  cases hsp : splitAtDot r with
  | none =>
      simp only [pickEntryF, innerStepEx, hsp]
      by_cases hk : hasKey es r = true
      · obtain ⟨w, hw⟩ : ∃ w, lookupKey es r = some w := by
          cases hlk : lookupKey es r with
          | none => rw [hasKey, hlk] at hk; simp at hk
          | some w => exact ⟨w, rfl⟩
        simp [hk, hw, setKey_lookup_self es r w hw]
      · simp [hk]
  | some ht =>
      obtain ⟨h, t⟩ := ht
      simp only [pickEntryF, innerStepEx, hsp]
      by_cases hk : hasKey es h = true
      · obtain ⟨w, hw⟩ : ∃ w, lookupKey es h = some w := by
          cases hlk : lookupKey es h with
          | none => rw [hasKey, hlk] at hk; simp at hk
          | some w => exact ⟨w, rfl⟩
        simp [hk, hw]
      · have hlk : lookupKey es h = none := by
          cases hl : lookupKey es h with
          | none => rfl
          | some w => rw [hasKey, hl] at hk; simp at hk
        simp [hk, hlk]

/-- The rest paths of the dotted ops, in order. -/
def dotTailsK (ops : List KOp) : List String :=
  ops.filterMap (fun o =>
    match o with
    | .kbare => none
    | .kdot r => some r)

/-- Aliased phase: once the record and result entries are the same object,
every subsequent op keeps them identical and applies the inner updates. -/
theorem opsRun_al (ops : List KOp) :
    ∀ es, opsRun ops ⟨some (.obj es), some (.obj es), true⟩
      = ⟨some (.obj (innerRunEx [] es (dotTailsK ops))),
          some (.obj (innerRunEx [] es (dotTailsK ops))), true⟩ := by
  induction ops with
  | nil => intro es; rfl
  | cons o ops ih =>
      intro es
      rw [opsRun_cons]
      cases o with
      | kbare =>
          have hstep : opStep ⟨some (.obj es), some (.obj es), true⟩ .kbare
              = ⟨some (.obj es), some (.obj es), true⟩ := rfl
          have hd : dotTailsK (.kbare :: ops) = dotTailsK ops := by
            simp [dotTailsK, List.filterMap_cons]
          rw [hstep, ih, hd]
      | kdot r =>
          have hstep : opStep ⟨some (.obj es), some (.obj es), true⟩ (.kdot r)
              = ⟨some (.obj (innerStepEx [] es r)),
                  some (.obj (innerStepEx [] es r)), true⟩ := by
            simp [opStep, objAssign_pick_step]
          have hd : dotTailsK (.kdot r :: ops) = r :: dotTailsK ops := by
            simp [dotTailsK, List.filterMap_cons]
          rw [hstep, ih, hd, innerRunEx_cons]

/-- Bare-free phase: the record entry and the alias flag are untouched. -/
theorem opsRun_nb :
    ∀ (ops : List KOp), (∀ o ∈ ops, o ≠ KOp.kbare) →
    ∀ (w : JSVal) (rs0 : Option JSVal), ∃ rs',
    opsRun ops ⟨some w, rs0, false⟩ = ⟨some w, rs', false⟩ := by
  intro ops
  induction ops with
  | nil => intro _ w rs0; exact ⟨rs0, rfl⟩
  | cons o ops ih =>
      intro hnb w rs0
      have hno : o ≠ KOp.kbare := hnb o (List.mem_cons_self o ops)
      cases o with
      | kbare => exact absurd rfl hno
      | kdot r =>
          rw [opsRun_cons]
          have hstep : ∃ rs1,
              opStep ⟨some w, rs0, false⟩ (.kdot r) = ⟨some w, rs1, false⟩ := by
            cases rs0 with
            | none =>
                exact ⟨some (pickFields1 w r).1, by simp [opStep, pickFields1_snd]⟩
            | some rv =>
                cases rv with
                | obj es =>
                    exact ⟨some (objAssign (.obj es) (pickFields1 w r).1),
                      by simp [opStep, pickFields1_snd]⟩
                | null =>
                    exact ⟨some (pickFields1 w r).1, by simp [opStep, pickFields1_snd]⟩
                | undef =>
                    exact ⟨some (pickFields1 w r).1, by simp [opStep, pickFields1_snd]⟩
                | bool b =>
                    exact ⟨some (pickFields1 w r).1, by simp [opStep, pickFields1_snd]⟩
                | num q =>
                    exact ⟨some (pickFields1 w r).1, by simp [opStep, pickFields1_snd]⟩
                | str s =>
                    exact ⟨some (pickFields1 w r).1, by simp [opStep, pickFields1_snd]⟩
                | arr xs =>
                    exact ⟨some (pickFields1 w r).1, by simp [opStep, pickFields1_snd]⟩
          obtain ⟨rs1, hs⟩ := hstep
          rw [hs]
          exact ih (fun o hm => hnb o (List.mem_cons_of_mem _ hm)) w rs1

/-- Bare-free phase on an object record entry, with an object result entry:
the result accumulates single-entry merges computed from the fixed record. -/
def nbAcc (g acc : List (String × JSVal)) (ds : List String) :
    List (String × JSVal) :=
  ds.foldl
    (fun acc r =>
      match pickEntryF g r with
      | none => acc
      | some (h, w) => setKey acc h w)
    acc

theorem nbAcc_cons (g acc : List (String × JSVal)) (r : String) (ds : List String) :
    nbAcc g acc (r :: ds)
      = nbAcc g
          (match pickEntryF g r with
            | none => acc
            | some (h, w) => setKey acc h w) ds := rfl

theorem opsRun_nb_obj (g : List (String × JSVal)) :
    ∀ (ops : List KOp), (∀ o ∈ ops, o ≠ KOp.kbare) →
    ∀ (acc : List (String × JSVal)),
    opsRun ops ⟨some (.obj g), some (.obj acc), false⟩
      = ⟨some (.obj g), some (.obj (nbAcc g acc (dotTailsK ops))), false⟩ := by
  intro ops
  induction ops with
  | nil => intro _ acc; rfl
  | cons o ops ih =>
      intro hnb acc
      have hno : o ≠ KOp.kbare := hnb o (List.mem_cons_self o ops)
      cases o with
      | kbare => exact absurd rfl hno
      | kdot r =>
          rw [opsRun_cons]
          have hoa : objAssign (.obj acc) (pickFields1 (.obj g) r).1
              = .obj (match pickEntryF g r with
                  | none => acc
                  | some (h, w) => setKey acc h w) := by
            rw [pick1_obj_fst, objAssign_entry]
          have hstep : opStep ⟨some (.obj g), some (.obj acc), false⟩ (.kdot r)
              = ⟨some (.obj g),
                  some (.obj (match pickEntryF g r with
                    | none => acc
                    | some (h, w) => setKey acc h w)), false⟩ := by
            rw [← hoa]
            simp [opStep, pickFields1_snd]
          have hd : dotTailsK (.kdot r :: ops) = r :: dotTailsK ops := by
            simp [dotTailsK, List.filterMap_cons]
          rw [hstep, ih (fun o hm => hnb o (List.mem_cons_of_mem _ hm)), hd,
            nbAcc_cons]

theorem opsRun_nb_obj_start (g : List (String × JSVal)) (o : KOp)
    (ops : List KOp) (hnb : ∀ x ∈ o :: ops, x ≠ KOp.kbare) :
    opsRun (o :: ops) ⟨some (.obj g), none, false⟩
      = ⟨some (.obj g),
          some (.obj (nbAcc g [] (dotTailsK (o :: ops)))), false⟩ := by
  have hno : o ≠ KOp.kbare := hnb o (List.mem_cons_self o ops)
  cases o with
  | kbare => exact absurd rfl hno
  | kdot r =>
      rw [opsRun_cons]
      have hstep : opStep ⟨some (.obj g), none, false⟩ (.kdot r)
          = ⟨some (.obj g), some (.obj (pickEntryF g r).toList), false⟩ := by
        rw [← pick1_obj_fst]
        simp [opStep, pickFields1_snd]
      have htl : (pickEntryF g r).toList
          = (match pickEntryF g r with
              | none => ([] : List (String × JSVal))
              | some (h, w) => setKey [] h w) := by
        cases pickEntryF g r with
        | none => rfl
        | some p =>
            obtain ⟨h, w⟩ := p
            rfl
      have hd : dotTailsK (.kdot r :: ops) = r :: dotTailsK ops := by
        simp [dotTailsK, List.filterMap_cons]
      rw [hstep, opsRun_nb_obj g ops (fun o hm => hnb o (List.mem_cons_of_mem _ hm)),
        hd, nbAcc_cons, htl]

/-! ### Replaying the bare-free object phase -/

/-- The value a single field contributes for its head key (reading the fixed
record entry). -/
def entryVal (g : List (String × JSVal)) (r : String) : JSVal :=
  match splitAtDot r with
  | none => (lookupKey g r).getD .undef
  | some (h, t) => (pickFields1 ((lookupKey g h).getD .undef) t).1

theorem pickEntryF_eq (g : List (String × JSVal)) (r : String) :
    pickEntryF g r =
      if hasKey g (headOf r) = true then some (headOf r, entryVal g r)
      else none := by
  cases hsp : splitAtDot r with
  | none => simp only [pickEntryF, headOf, entryVal, hsp]
  | some ht =>
      obtain ⟨h, t⟩ := ht
      simp only [pickEntryF, headOf, entryVal, hsp]

theorem nbStep_eq (g acc : List (String × JSVal)) (r : String) :
    (match pickEntryF g r with
      | none => acc
      | some (h, w) => setKey acc h w)
      = if hasKey g (headOf r) = true then setKey acc (headOf r) (entryVal g r)
        else acc := by
  rw [pickEntryF_eq]
  by_cases hk : hasKey g (headOf r) = true
  · rw [if_pos hk, if_pos hk]
  · rw [if_neg hk, if_neg hk]

theorem nbAcc_cons_if (g acc : List (String × JSVal)) (r : String)
    (ds : List String) :
    nbAcc g acc (r :: ds)
      = nbAcc g
          (if hasKey g (headOf r) = true then setKey acc (headOf r) (entryVal g r)
           else acc) ds := by
  rw [nbAcc_cons, nbStep_eq]

/-- The last value contributed for a key by a path list (later fields
overwrite earlier ones). -/
def lastEnt (g : List (String × JSVal)) (h : String) : List String → Option JSVal
  | [] => none
  | r :: ds =>
      match lastEnt g h ds with
      | some w => some w
      | none =>
          if headOf r = h ∧ hasKey g h = true then some (entryVal g r) else none

theorem nbAcc_lookup (g : List (String × JSVal)) :
    ∀ (ds : List String) (acc : List (String × JSVal)) (h : String),
    lookupKey (nbAcc g acc ds) h =
      match lastEnt g h ds with
      | some w => some w
      | none => lookupKey acc h := by
  intro ds
  induction ds with
  | nil => intro acc h; rfl
  | cons r ds ih =>
      intro acc h
      have hlast : lastEnt g h (r :: ds)
          = match lastEnt g h ds with
            | some w => some w
            | none =>
                if headOf r = h ∧ hasKey g h = true then some (entryVal g r)
                else none := rfl
      rw [nbAcc_cons_if, hlast]
      cases hle : lastEnt g h ds with
      | some w =>
          by_cases hk : hasKey g (headOf r) = true
          · rw [if_pos hk, ih, hle]
          · rw [if_neg hk, ih, hle]
      | none =>
          by_cases hp : headOf r = h ∧ hasKey g h = true
          · rw [if_pos hp]
            have hk : hasKey g (headOf r) = true := by rw [hp.1]; exact hp.2
            rw [if_pos hk, ih, hle]
            rw [lookupKey_setKey, if_pos hp.1]
          · rw [if_neg hp]
            by_cases hk : hasKey g (headOf r) = true
            · rw [if_pos hk, ih, hle, lookupKey_setKey]
              have hne : ¬ (headOf r = h) := by
                intro hc
                exact hp ⟨hc, by rw [← hc]; exact hk⟩
              rw [if_neg hne]
            · rw [if_neg hk, ih, hle]

theorem lastEnt_isSome (g : List (String × JSVal)) (h : String) :
    ∀ (ds : List String),
    (lastEnt g h ds).isSome = true
      ↔ (hasKey g h = true ∧ ∃ r ∈ ds, headOf r = h) := by
  intro ds
  induction ds with
  | nil => simp [lastEnt]
  | cons r ds ih =>
      have hlast : lastEnt g h (r :: ds)
          = match lastEnt g h ds with
            | some w => some w
            | none =>
                if headOf r = h ∧ hasKey g h = true then some (entryVal g r)
                else none := rfl
      rw [hlast]
      cases hle : lastEnt g h ds with
      | some w =>
          constructor
          · intro _
            obtain ⟨hk, r', hm, hh⟩ := ih.mp (by rw [hle]; rfl)
            exact ⟨hk, r', List.mem_cons_of_mem r hm, hh⟩
          · intro _
            rfl
      | none =>
          by_cases hp : headOf r = h ∧ hasKey g h = true
          · rw [if_pos hp]
            constructor
            · intro _
              exact ⟨hp.2, r, List.mem_cons_self r ds, hp.1⟩
            · intro _
              rfl
          · rw [if_neg hp]
            constructor
            · intro hc
              exact absurd hc (by simp)
            · rintro ⟨hk, r', hm, hh⟩
              rcases List.mem_cons.mp hm with heq | hm'
              · exact ((hp ⟨heq ▸ hh, hk⟩).elim)
              · have hds := ih.mpr ⟨hk, r', hm', hh⟩
                rw [hle] at hds
                exact hds

/-- Rerunning the contribution scan on the accumulated object reproduces the
per-key last values (via single-pick idempotence). -/
theorem lastEnt_replay (g F : List (String × JSVal)) (h : String) :
    ∀ (ds : List String),
    (∀ r ∈ ds, hasKey F (headOf r) = hasKey g (headOf r)) →
    lookupKey F h = lastEnt g h ds →
    lastEnt F h ds = lastEnt g h ds := by
  intro ds
  induction ds with
  | nil => intro _ _; rfl
  | cons r ds ih =>
      intro Hk Hv
      have hlastF : lastEnt F h (r :: ds)
          = match lastEnt F h ds with
            | some w => some w
            | none =>
                if headOf r = h ∧ hasKey F h = true then some (entryVal F r)
                else none := rfl
      have hlastG : lastEnt g h (r :: ds)
          = match lastEnt g h ds with
            | some w => some w
            | none =>
                if headOf r = h ∧ hasKey g h = true then some (entryVal g r)
                else none := rfl
      rw [hlastG] at Hv
      cases hle : lastEnt g h ds with
      | some w =>
          rw [hle] at Hv
          have hF : lastEnt F h ds = some w := by
            rw [← hle]
            exact ih (fun r' hm => Hk r' (List.mem_cons_of_mem r hm))
              (by rw [hle]; exact Hv)
          rw [hlastF, hF, hlastG, hle]
      | none =>
          rw [hle] at Hv
          have hFds : lastEnt F h ds = none := by
            cases hcF : lastEnt F h ds with
            | none => rfl
            | some w =>
                obtain ⟨hk, r', hm', hh'⟩ :=
                  (lastEnt_isSome F h ds).mp (by rw [hcF]; rfl)
                have hkr := Hk r' (List.mem_cons_of_mem r hm')
                rw [hh'] at hkr
                have hds := (lastEnt_isSome g h ds).mpr ⟨hkr ▸ hk, r', hm', hh'⟩
                rw [hle] at hds
                exact absurd hds (by simp)
          rw [hlastF, hFds, hlastG, hle]
          by_cases hp : headOf r = h ∧ hasKey g h = true
          · have hkF : hasKey F h = true := by
              have hkr := Hk r (List.mem_cons_self r ds)
              rw [hp.1] at hkr
              rw [hkr]
              exact hp.2
            rw [if_pos ⟨hp.1, hkF⟩, if_pos hp]
            rw [if_pos hp] at Hv
            cases hsp : splitAtDot r with
            | none =>
                have hr : r = h := by rw [← hp.1, headOf, hsp]
                subst hr
                simp only [entryVal, hsp]
                rw [Hv]
                simp only [Option.getD_some]
                simp only [entryVal, hsp]
            | some ht0 =>
                obtain ⟨h0, t⟩ := ht0
                have hh0 : h0 = h := by rw [← hp.1, headOf, hsp]
                subst hh0
                simp only [entryVal, hsp]
                rw [Hv]
                simp only [Option.getD_some]
                have hvg : entryVal g r
                    = (pickFields1 ((lookupKey g h0).getD .undef) t).1 := by
                  simp only [entryVal, hsp]
                rw [hvg, pickFields1_fst_idem]
          · have hnF : ¬ (headOf r = h ∧ hasKey F h = true) := by
              rintro ⟨h1, h2⟩
              have hkr := Hk r (List.mem_cons_self r ds)
              rw [h1] at hkr
              exact hp ⟨h1, by rw [← hkr]; exact h2⟩
            rw [if_neg hnF, if_neg hp]

theorem nbAcc_keys (g : List (String × JSVal)) :
    ∀ (ds : List String) (acc : List (String × JSVal)),
    (nbAcc g acc ds).map Prod.fst = resKeys g ds (acc.map Prod.fst) := by
  intro ds
  induction ds with
  | nil => intro acc; rfl
  | cons r ds ih =>
      intro acc
      rw [nbAcc_cons_if, resKeys_cons]
      by_cases hk : hasKey g (headOf r) = true
      · simp only [if_pos hk]
        rw [ih, keys_setKey_insEnd]
      · simp only [if_neg hk]
        rw [ih]

/-- No-bare replay: rerunning the contribution scan on its own output is the
identity. -/
theorem nbAcc_replay (g : List (String × JSVal)) (ds : List String) :
    nbAcc (nbAcc g [] ds) [] ds = nbAcc g [] ds := by
  have hmap : (List.map Prod.fst ([] : List (String × JSVal))) = [] := rfl
  have hkeysF : (nbAcc g [] ds).map Prod.fst = resKeys g ds [] := by
    have h0 := nbAcc_keys g ds []
    rw [hmap] at h0
    exact h0
  have Hk : ∀ r ∈ ds,
      hasKey (nbAcc g [] ds) (headOf r) = hasKey g (headOf r) := by
    intro r hm
    by_cases hk : hasKey g (headOf r) = true
    · rw [hk]
      have hmem : headOf r ∈ (nbAcc g [] ds).map Prod.fst := by
        rw [hkeysF]
        exact (mem_resKeys ds g [] (headOf r)).mpr (Or.inr ⟨r, hm, rfl, hk⟩)
      exact (lookupKey_isSome_iff _ _).mpr hmem
    · have hkf : hasKey g (headOf r) = false := by
        cases hb : hasKey g (headOf r) with
        | false => rfl
        | true => exact absurd hb hk
      rw [hkf]
      have hnm : headOf r ∉ (nbAcc g [] ds).map Prod.fst := by
        rw [hkeysF]
        intro hc
        rcases (mem_resKeys ds g [] (headOf r)).mp hc with hin | ⟨f, _, _, hkf2⟩
        · exact absurd hin (List.not_mem_nil _)
        · exact absurd hkf2 hk
      have hnone : lookupKey (nbAcc g [] ds) (headOf r) = none :=
        (lookupKey_eq_none_iff _ _).mpr hnm
      rw [hasKey, hnone]
      rfl
  have hvF : ∀ k, lookupKey (nbAcc g [] ds) k = lastEnt g k ds := by
    intro k
    rw [nbAcc_lookup g ds [] k]
    cases lastEnt g k ds with
    | some w => rfl
    | none => rfl
  apply assoc_ext
  · rw [nbAcc_keys (nbAcc g [] ds) ds [], hmap, hkeysF]
    exact resKeys_congr ds (nbAcc g [] ds) g Hk []
  · rw [nbAcc_keys (nbAcc g [] ds) ds [], hmap]
    exact resKeys_nodup ds (nbAcc g [] ds) [] List.nodup_nil
  · intro k
    have hrel : lastEnt (nbAcc g [] ds) k ds = lastEnt g k ds :=
      lastEnt_replay g (nbAcc g [] ds) k ds Hk (hvF k)
    rw [nbAcc_lookup (nbAcc g [] ds) ds [] k, hrel, hvF k]
    cases lastEnt g k ds with
    | some w => rfl
    | none => rfl

/-! ### The full per-key replay theorem -/

theorem opsRun_append (l1 l2 : List KOp) (s : KSt) :
    opsRun (l1 ++ l2) s = opsRun l2 (opsRun l1 s) := by
  simp [opsRun, List.foldl_append]

theorem exists_first_bare (ops : List KOp) :
    (∀ o ∈ ops, o ≠ KOp.kbare)
    ∨ ∃ pre post, ops = pre ++ KOp.kbare :: post
        ∧ ∀ o ∈ pre, o ≠ KOp.kbare := by
  induction ops with
  | nil => exact Or.inl (fun o h => absurd h (List.not_mem_nil o))
  | cons o ops ih =>
      cases o with
      | kbare =>
          exact Or.inr ⟨[], ops, rfl, fun o h => absurd h (List.not_mem_nil o)⟩
      | kdot r =>
          rcases ih with h | ⟨pre, post, heq, hpre⟩
          · refine Or.inl ?_
            intro o hm
            rcases List.mem_cons.mp hm with heq | hm'
            · rw [heq]
              intro hc
              cases hc
            · exact h o hm'
          · refine Or.inr ⟨.kdot r :: pre, post, ?_, ?_⟩
            · rw [heq]
              rfl
            · intro o hm
              rcases List.mem_cons.mp hm with heq2 | hm'
              · rw [heq2]
                intro hc
                cases hc
              · exact hpre o hm'

theorem opsRun_obj_replay (g : List (String × JSVal)) (ops : List KOp) :
    (opsRun ops ⟨(opsRun ops ⟨some (.obj g), none, false⟩).rs, none, false⟩).rs
      = (opsRun ops ⟨some (.obj g), none, false⟩).rs := by
  rcases exists_first_bare ops with hnb | ⟨pre, post, heq, hpre⟩
  · cases ops with
    | nil => rfl
    | cons o rest =>
        rw [opsRun_nb_obj_start g o rest hnb]
        dsimp only
        rw [opsRun_nb_obj_start (nbAcc g [] (dotTailsK (o :: rest))) o rest hnb]
        dsimp only
        rw [nbAcc_replay]
  · subst heq
    have heval : ∀ (es : List (String × JSVal)),
        opsRun (pre ++ KOp.kbare :: post) ⟨some (.obj es), none, false⟩
          = ⟨some (.obj (innerRunEx [] es (dotTailsK post))),
              some (.obj (innerRunEx [] es (dotTailsK post))), true⟩ := by
      intro es
      rw [opsRun_append]
      obtain ⟨rs', hpre_run⟩ := opsRun_nb pre hpre (.obj es) none
      rw [hpre_run, opsRun_cons]
      have hb : opStep ⟨some (.obj es), rs', false⟩ .kbare
          = ⟨some (.obj es), some (.obj es), true⟩ := rfl
      rw [hb, opsRun_al]
    rw [heval g]
    dsimp only
    rw [heval (innerRunEx [] g (dotTailsK post))]
    dsimp only
    rw [innerRunEx_idem]

theorem pickFields1_fix (u : JSVal) (h1 : ∀ t, (pickFields1 u t).1 = u) :
    ∀ t, pickFields1 u t = (u, u) := by
  intro t
  have h2 := pickFields1_snd u t
  have h1t := h1 t
  cases hp : pickFields1 u t with
  | mk a b =>
      rw [hp] at h1t h2
      dsimp only at h1t h2
      rw [h1t, h2]

theorem opsRun_prim_replay (u : JSVal) (hfix : ∀ t, pickFields1 u t = (u, u))
    (hno : ∀ es, u ≠ JSVal.obj es) (ops : List KOp) :
    (opsRun ops ⟨(opsRun ops ⟨some u, none, false⟩).rs, none, false⟩).rs
      = (opsRun ops ⟨some u, none, false⟩).rs := by
  by_cases hne : ops = []
  · subst hne
    rfl
  · obtain ⟨b1, h1⟩ := opsRun_prim_start u hfix hno ops hne
    rw [h1]
    dsimp only
    obtain ⟨b2, h2⟩ := opsRun_prim_start u hfix hno ops hne
    rw [h2]

theorem opsRun_arr_replay (xs : List JSVal) (ops : List KOp) :
    (opsRun ops ⟨(opsRun ops ⟨some (.arr xs), none, false⟩).rs, none, false⟩).rs
      = (opsRun ops ⟨some (.arr xs), none, false⟩).rs := by
  rw [opsRun_arr xs ops none false (Or.inl rfl)]
  cases hlast : ops.getLast? with
  | none =>
      dsimp only
      rw [opsRun_none]
  | some o =>
      cases o with
      | kbare =>
          dsimp only
          rw [opsRun_arr xs ops none false (Or.inl rfl), hlast]
      | kdot r =>
          dsimp only
          rw [pick1_fst_arr]
          rw [opsRun_arr (xs.map (fun x => (pickFields1 x r).1)) ops none false
            (Or.inl rfl), hlast]
          dsimp only
          rw [← pick1_fst_arr, pickFields1_fst_idem]

/-- Replay: running a key's ops on the result they produced reproduces that
result. -/
theorem opsRun_replay (ops : List KOp) (u0 : Option JSVal) :
    (opsRun ops ⟨(opsRun ops ⟨u0, none, false⟩).rs, none, false⟩).rs
      = (opsRun ops ⟨u0, none, false⟩).rs := by
  cases u0 with
  | none =>
      rw [opsRun_none]
      dsimp only
      rw [opsRun_none]
  | some u =>
      cases u with
      | obj g => exact opsRun_obj_replay g ops
      | arr xs => exact opsRun_arr_replay xs ops
      | null =>
          exact opsRun_prim_replay .null (pickFields1_fix _ pick1_fst_null)
            (by intro es h; cases h) ops
      | undef =>
          exact opsRun_prim_replay .undef (pickFields1_fix _ pick1_fst_undef)
            (by intro es h; cases h) ops
      | bool b =>
          exact opsRun_prim_replay (.bool b)
            (pickFields1_fix _ (pick1_fst_bool b))
            (by intro es h; cases h) ops
      | num q =>
          exact opsRun_prim_replay (.num q)
            (pickFields1_fix _ (pick1_fst_num q))
            (by intro es h; cases h) ops
      | str s =>
          exact opsRun_prim_replay (.str s)
            (pickFields1_fix _ (pick1_fst_str s))
            (by intro es h; cases h) ops

/-! ### Assembly: idempotence of `pickFields` -/

/-- The loop's result observed at one key, from the canonical start state. -/
theorem pickFields_obj_lookup (fs : List (String × JSVal))
    (fields : List String) (k : String) :
    lookupKey ((pickLoop fields fs [] []).2.1) k
      = (opsRun (opsOf k fields) ⟨lookupKey fs k, none, false⟩).rs := by
  have hp := pickLoop_projK k fields fs [] [] List.nodup_nil
  have h0 : projK k (pickLoop fields fs [] [])
      = opsRun (opsOf k fields) ⟨lookupKey fs k, none, false⟩ := hp
  exact congrArg KSt.rs h0

/-- Rerunning the loop on its own result reproduces the result list. -/
theorem pickLoop_result_replay (fs : List (String × JSVal))
    (fields : List String) :
    (pickLoop fields ((pickLoop fields fs [] []).2.1) [] []).2.1
      = (pickLoop fields fs [] []).2.1 := by
  have hmap : (List.map Prod.fst ([] : List (String × JSVal))) = [] := rfl
  have hkeysR1 : ((pickLoop fields fs [] []).2.1).map Prod.fst
      = resKeys fs fields [] := by
    have h0 := pickLoop_result_keys fields fs [] []
    rw [hmap] at h0
    exact h0
  have Hk : ∀ f ∈ fields,
      hasKey ((pickLoop fields fs [] []).2.1) (headOf f)
        = hasKey fs (headOf f) := by
    intro f hm
    by_cases hk : hasKey fs (headOf f) = true
    · rw [hk]
      have hmem : headOf f ∈ ((pickLoop fields fs [] []).2.1).map Prod.fst := by
        rw [hkeysR1]
        exact (mem_resKeys fields fs [] (headOf f)).mpr (Or.inr ⟨f, hm, rfl, hk⟩)
      exact (lookupKey_isSome_iff _ _).mpr hmem
    · have hkf : hasKey fs (headOf f) = false := by
        cases hb : hasKey fs (headOf f) with
        | false => rfl
        | true => exact absurd hb hk
      rw [hkf]
      have hnm : headOf f ∉ ((pickLoop fields fs [] []).2.1).map Prod.fst := by
        rw [hkeysR1]
        intro hc
        rcases (mem_resKeys fields fs [] (headOf f)).mp hc with hin | ⟨g, _, _, hkf2⟩
        · exact absurd hin (List.not_mem_nil _)
        · exact absurd hkf2 hk
      have hnone : lookupKey ((pickLoop fields fs [] []).2.1) (headOf f) = none :=
        (lookupKey_eq_none_iff _ _).mpr hnm
      rw [hasKey, hnone]
      rfl
  apply assoc_ext
  · have h0 := pickLoop_result_keys fields ((pickLoop fields fs [] []).2.1) [] []
    rw [hmap] at h0
    rw [h0, hkeysR1]
    exact resKeys_congr fields _ fs Hk []
  · have h0 := pickLoop_result_keys fields ((pickLoop fields fs [] []).2.1) [] []
    rw [hmap] at h0
    rw [h0]
    exact resKeys_nodup fields _ [] List.nodup_nil
  · intro k
    rw [pickFields_obj_lookup ((pickLoop fields fs [] []).2.1) fields k,
      pickFields_obj_lookup fs fields k]
    exact opsRun_replay (opsOf k fields) (lookupKey fs k)

mutual

/-- `pickFields` is idempotent on its return value. -/
theorem pickFields_fst_idem :
    (v : JSVal) → (fields : List String) →
    (pickFields (pickFields v fields).1 fields).1 = (pickFields v fields).1
  | .null, _ => rfl
  | .undef, _ => rfl
  | .bool b, _ => rfl
  | .num q, _ => rfl
  | .str s, _ => rfl
  | .arr xs, fields => by
      have h := pickList_fst_idem xs fields
      simp only [pickFields]
      exact congrArg JSVal.arr h
  | .obj fs, fields => by
      simp only [pickFields]
      exact congrArg JSVal.obj (pickLoop_result_replay fs fields)

theorem pickList_fst_idem :
    (xs : List JSVal) → (fields : List String) →
    (pickList ((pickList xs fields).map Prod.fst) fields).map Prod.fst
      = (pickList xs fields).map Prod.fst
  | [], _ => rfl
  | x :: xs, fields => by
      have h1 := pickFields_fst_idem x fields
      have h2 := pickList_fst_idem xs fields
      simp only [pickList, List.map_cons]
      rw [h1, h2]

end

/-- C7: for every value and every list of field paths, `pickFields` is
idempotent — applying it to its own return value with the same paths returns
that value unchanged:
`pickFields(pickFields(x, paths), paths) == pickFields(x, paths)`. -/
theorem claim_C7_pickFields_idempotent (v : JSVal) (fields : List String) :
    (pickFields (pickFields v fields).1 fields).1 = (pickFields v fields).1 :=
  pickFields_fst_idem v fields

end Acube
